import Mathlib

/-!
# Verification of the `checker` diff engine

Shallow embedding of the structural diff engine of the `checker` repository
(`src/ArrayDiffChecker.tsx` and `src/ObjectDiffChecker.tsx`): the JSON-plus-extensions
value model, the canonical key function (`stableStringify` / `stableKey` — both files
contain the identical function), the duplicate/set analyzers, the recursive diff
algorithm `deepDiff` with its two-mode array strategy (`diffArrays`), the tolerant
three-tier parsers (`safeParse` / `smartParse` and their regex pre-passes), and the
analysis entry points.

Modelling conventions:
* JavaScript dynamic values become the closed tagged union `Value`.  `NaN`,
  `Infinity` and `-Infinity` are separate variants (as in the spec's data model),
  so `Value.num` carries only finite numbers; finite numbers are modelled as
  integers rendered in canonical decimal form (every number appearing in the
  repository's examples and in the claims is an integer).
* JavaScript objects become insertion-ordered association lists
  `List (String × Value)`; runtime JS objects always have distinct keys.
* Recursive functions over `Value` are defined by mutual structural recursion
  with the nested `List`s; functions whose JS original recurses along a
  non-structural measure (the diff engine, the parsers, the regex rewriter)
  take an explicit fuel argument, and the exported wrapper instantiates the
  fuel with a bound (`vdepth`, input length) that the lemmas prove sufficient.
* String order used for JS `Array.prototype.sort()` on keys is code-unit
  lexicographic; the embedding compares Lean `Char`s (code points), which
  agrees on all inputs without surrogate pairs.
-/

set_option maxHeartbeats 1000000

/-- Character constants written via code points (JS source writes them literally). -/
def lbrace : Char := Char.ofNat 123

def rbrace : Char := Char.ofNat 125

def quoteC : Char := Char.ofNat 34

def backslashC : Char := Char.ofNat 92

def singleQuoteC : Char := Char.ofNat 39

/-- The value model: a closed tagged union for JSON plus the JS extensions
(`undefined`, `NaN`, `±Infinity`) that the engine distinguishes. -/
inductive Value where
  | null
  | undef
  | bool (b : Bool)
  | num (n : Int)
  | nan
  | posInf
  | negInf
  | str (s : String)
  | arr (elems : List Value)
  | obj (fields : List (String × Value))

/-- Decimal digit character. -/
def digitChar (n : Nat) : Char := Char.ofNat (48 + n)

/-- Digits of a natural number, most significant first (fuelled divmod loop;
`n < fuel` always suffices). -/
def natCharsAux : Nat → Nat → List Char → List Char
  | 0, _, acc => acc
  | fuel + 1, n, acc =>
    if n < 10 then digitChar n :: acc
    else natCharsAux fuel (n / 10) (digitChar (n % 10) :: acc)

def natChars (n : Nat) : List Char := natCharsAux (n + 1) n []

def natToString (n : Nat) : String := String.mk (natChars n)

/-- Decimal rendering of an integer, as produced by `JSON.stringify` /
`toString` for integral JS numbers. -/
def intChars (n : Int) : List Char :=
  if n < 0 then '-' :: natChars n.natAbs else natChars n.natAbs

/-- `JSON.stringify` escaping for one character of a string. -/
def escapeJsonChar (c : Char) : List Char :=
  if c = quoteC then [backslashC, quoteC]
  else if c = backslashC then [backslashC, backslashC]
  else if c = Char.ofNat 8 then [backslashC, 'b']
  else if c = Char.ofNat 12 then [backslashC, 'f']
  else if c = Char.ofNat 10 then [backslashC, 'n']
  else if c = Char.ofNat 13 then [backslashC, 'r']
  else if c = Char.ofNat 9 then [backslashC, 't']
  else if c.toNat < 32 then
    [backslashC, 'u', '0', '0',
      (if c.toNat / 16 < 10 then digitChar (c.toNat / 16) else Char.ofNat (87 + c.toNat / 16)),
      (if c.toNat % 16 < 10 then digitChar (c.toNat % 16) else Char.ofNat (87 + c.toNat % 16))]
  else [c]

/-- `JSON.stringify` of a string value: double-quoted with escapes. -/
def jsonQuoteChars (s : String) : List Char :=
  quoteC :: (s.data.flatMap escapeJsonChar) ++ [quoteC]

def jsonQuote (s : String) : String := String.mk (jsonQuoteChars s)

/-- `Array.prototype.join(",")`. -/
def joinComma : List String → String
  | [] => ""
  | [s] => s
  | s :: rest => s ++ "," ++ joinComma rest

/-- Code-unit lexicographic `≤` on strings (the default JS sort comparator). -/
def strLe : List Char → List Char → Bool
  | [], _ => true
  | _ :: _, [] => false
  | c :: cs, d :: ds => if c < d then true else if c = d then strLe cs ds else false

/-- Insert into a sorted key list (JS `Array.prototype.sort()` on string keys). -/
def insertKey (k : String) : List String → List String
  | [] => [k]
  | k' :: rest => if strLe k.data k'.data then k :: k' :: rest else k' :: insertKey k rest

/-- Sort a key list lexicographically (insertion sort; JS sort is a stable sort
with the same comparator, and produces the same list on string keys). -/
def sortKeys : List String → List String
  | [] => []
  | k :: rest => insertKey k (sortKeys rest)

/-- First-occurrence lookup in an association list (JS property access `v[k]`;
JS objects have unique keys, so first = only). Absent keys give `undefined`. -/
def lookupD : List (String × Value) → String → Value
  | [], _ => .undef
  | (k', v) :: rest, k => if k' = k then v else lookupD rest k

/-- Key membership (JS `key in obj` / `Set.has`). -/
def memKey : List (String × Value) → String → Bool
  | [], _ => false
  | (k', _) :: rest, k => k' = k || memKey rest k

/-- `Object.keys`. -/
def keysOf (fs : List (String × Value)) : List String := fs.map Prod.fst

mutual

/-- `stableStringify` (ArrayDiffChecker) = `stableKey` (ObjectDiffChecker):
serialize any value to a stable string; object keys sorted alphabetically,
array elements folded in order; `undefined`, `NaN`, `±Infinity` get sentinel
keys; other scalars use `JSON.stringify`. -/
def stableKey : Value → String
  | .undef => "__undefined__"
  | .nan => "__NaN__"
  | .posInf => "__Infinity__"
  | .negInf => "__-Infinity__"
  | .arr xs => "[" ++ joinComma (stableKeyList xs) ++ "]"
  | .obj fs =>
    String.mk [lbrace] ++
      joinComma ((sortKeys (keysOf fs)).map
        (fun k => jsonQuote k ++ ":" ++ stableKeyLook fs k)) ++
      String.mk [rbrace]
  | .null => "null"
  | .bool b => if b then "true" else "false"
  | .num n => String.mk (intChars n)
  | .str s => jsonQuote s
termination_by structural v => v

def stableKeyList : List Value → List String
  | [] => []
  | v :: rest => stableKey v :: stableKeyList rest
termination_by structural l => l

/-- `stableKey (v[k])` for a key of `fs` (JS maps `k => ... stableKey(v[k])`
over the sorted key array; unfolded here so the recursion is structural). -/
def stableKeyLook : List (String × Value) → String → String
  | [], _ => "__undefined__"
  | (k', v) :: rest, k => if k' = k then stableKey v else stableKeyLook rest k
termination_by structural l => l

end

/-- `isPrimitive` from the source: `v === null || v === undefined || typeof v !== "object"`. -/
def isPrimitive : Value → Bool
  | .arr _ => false
  | .obj _ => false
  | _ => true

/-! ## The diff result model -/

/-- One `added` / `removed` / `same` entry: a path and the value there. -/
structure DiffEntry where
  path : String
  value : Value

/-- One `changed` entry: a path with the old and new value. -/
structure ChangedEntry where
  path : String
  fromVal : Value
  toVal : Value

/-- The four-way diff report. -/
structure DiffResult where
  added : List DiffEntry
  removed : List DiffEntry
  changed : List ChangedEntry
  same : List DiffEntry

def emptyDiff : DiffResult := ⟨[], [], [], []⟩

/-- Merging a recursive result into the accumulated one
(`diffs.added.push(...n.added)` etc. in the source). -/
def mergeInto (acc n : DiffResult) : DiffResult :=
  ⟨acc.added ++ n.added, acc.removed ++ n.removed,
   acc.changed ++ n.changed, acc.same ++ n.same⟩

/-- Path suffix for a real array index: `path[i]`. -/
def pathIdx (path : String) (i : Nat) : String :=
  path ++ "[" ++ natToString i ++ "]"

/-- Synthetic path suffix for a bag-mode removed entry: `path[-r]`. -/
def pathNeg (path : String) (r : Nat) : String :=
  path ++ "[-" ++ natToString r ++ "]"

/-- Synthetic path suffix for a bag-mode added entry: `path[+a]`. -/
def pathPos (path : String) (a : Nat) : String :=
  path ++ "[+" ++ natToString a ++ "]"

/-- Child path for an object key: `path ? path + "." + key : key`. -/
def pathKey (path key : String) : String :=
  if path = "" then key else path ++ "." ++ key

/-! ## Bag mode (all-primitive arrays): per-canonical-key counts -/

/-- One entry of the `Map<string, {v,n}>` used by the set-based diff:
canonical key, first-encountered value, occurrence count. -/
structure CountEntry where
  k : String
  v : Value
  n : Nat

/-- `const e = count.get(k); e ? e.n++ : count.set(k, {v, n:1})` —
JS `Map` preserves insertion order, modelled by an ordered list. -/
def bumpCount : List CountEntry → String → Value → List CountEntry
  | [], k, v => [⟨k, v, 1⟩]
  | e :: rest, k, v =>
    if e.k = k then ⟨e.k, e.v, e.n + 1⟩ :: rest else e :: bumpCount rest k v

/-- Occurrence-count map of a list of values by canonical key. -/
def countMap : List Value → List CountEntry → List CountEntry
  | [], acc => acc
  | v :: rest, acc => countMap rest (bumpCount acc (stableKey v) v)

/-- `count.get(k)`. -/
def lookupCount : List CountEntry → String → Option CountEntry
  | [], _ => none
  | e :: rest, k => if e.k = k then some e else lookupCount rest k

/-- `n` entries `⟨path[start], v⟩ … ⟨path[start+n-1], v⟩`. -/
def sameRun (path : String) (v : Value) : Nat → Nat → List DiffEntry
  | _, 0 => []
  | start, m + 1 => ⟨pathIdx path start, v⟩ :: sameRun path v (start + 1) m

def removedRun (path : String) (v : Value) : Nat → Nat → List DiffEntry
  | _, 0 => []
  | start, m + 1 => ⟨pathNeg path start, v⟩ :: removedRun path v (start + 1) m

def addedRun (path : String) (v : Value) : Nat → Nat → List DiffEntry
  | _, 0 => []
  | start, m + 1 => ⟨pathPos path start, v⟩ :: addedRun path v (start + 1) m

/-- First loop of the set-based diff: for each entry of `countA`, emit
`min(ea.n, eb.n)` same entries, the excess of `ea.n` as removed and (when the
key is present in `countB`) the excess of `eb.n` as added, threading the three
path counters.  Returns the accumulated result and the final added counter. -/
def bagLoopA (cB : List CountEntry) (path : String) :
    List CountEntry → Nat → Nat → Nat → DiffResult → DiffResult × Nat
  | [], _, ai, _, acc => (acc, ai)
  | ea :: rest, si, ai, ri, acc =>
    match lookupCount cB ea.k with
    | none =>
      bagLoopA cB path rest si ai (ri + ea.n)
        { acc with removed := acc.removed ++ removedRun path ea.v ri ea.n }
    | some eb =>
      let sameN := min ea.n eb.n
      bagLoopA cB path rest (si + sameN) (ai + (eb.n - sameN)) (ri + (ea.n - sameN))
        { acc with
          same := acc.same ++ sameRun path ea.v si sameN
          removed := acc.removed ++ removedRun path ea.v ri (ea.n - sameN)
          added := acc.added ++ addedRun path eb.v ai (eb.n - sameN) }

/-- Second loop: keys present only in `countB` are fully added. -/
def bagLoopB (cA : List CountEntry) (path : String) :
    List CountEntry → Nat → DiffResult → DiffResult
  | [], _, acc => acc
  | eb :: rest, ai, acc =>
    match lookupCount cA eb.k with
    | some _ => bagLoopB cA path rest ai acc
    | none =>
      bagLoopB cA path rest (ai + eb.n)
        { acc with added := acc.added ++ addedRun path eb.v ai eb.n }

/-- Set-based (bag-mode) array diff for all-primitive arrays. -/
def diffArraysPrim (a b : List Value) (path : String) : DiffResult :=
  let cA := countMap a []
  let cB := countMap b []
  let (acc, ai) := bagLoopA cB path cA 0 0 0 emptyDiff
  bagLoopB cA path cB ai acc

/-! ## Structural mode (arrays with composite elements) -/

/-- Scan for the first unconsumed element of `b` with the given canonical key
(the exact-match pass of the structural loop). -/
def findExactAux (used : List Nat) (ka : String) : List Value → Nat → Option Nat
  | [], _ => none
  | vb :: rest, j =>
    if !used.contains j && stableKey vb = ka then some j
    else findExactAux used ka rest (j + 1)

def findExactIdx (b : List Value) (used : List Nat) (ka : String) : Option Nat :=
  findExactAux used ka b 0

/-- Count of distinct keys of `fa` also present in `fb`
(`new Set(Object.keys(va))` iterated against `keysB.has`). -/
def dedupStr : List String → List String → List String
  | [], _ => []
  | k :: rest, seen =>
    if seen.contains k then dedupStr rest seen else k :: dedupStr rest (k :: seen)

/-- Similarity score of two same-kind composite values: for objects, the count
of shared keys plus a bonus of 10 for each identifier-like key (`id`, `key`,
`name`, `type`) present on both sides with equal canonical key of its value;
for arrays, the count of common positions with equal canonical keys.
`none` when the kinds differ (such candidates are skipped). -/
def simScore : Value → Value → Option Nat
  | .obj fa, .obj fb =>
    let shared := ((dedupStr (keysOf fa) []).filter (fun k => (keysOf fb).contains k)).length
    let bonus := (["id", "key", "name", "type"].filter
      (fun k => memKey fa k && memKey fb k && stableKeyLook fa k = stableKeyLook fb k)).length * 10
    some (shared + bonus)
  | .arr xa, .arr xb =>
    some (((xa.zip xb).filter (fun p => stableKey p.1 = stableKey p.2)).length)
  | _, _ => none

/-- Best structural match: scan unconsumed same-kind elements of `b`, keeping
the strictly highest score (first candidate wins ties: `score > bestScore`
with `bestScore` starting at −1). -/
def bestMatchAux (va : Value) (used : List Nat) :
    List Value → Nat → Option (Nat × Nat) → Option (Nat × Nat)
  | [], _, best => best
  | vb :: rest, j, best =>
    if used.contains j then bestMatchAux va used rest (j + 1) best
    else
      match simScore va vb with
      | none => bestMatchAux va used rest (j + 1) best
      | some s =>
        match best with
        | none => bestMatchAux va used rest (j + 1) (some (j, s))
        | some (bj, bs) =>
          if s > bs then bestMatchAux va used rest (j + 1) (some (j, s))
          else bestMatchAux va used rest (j + 1) (some (bj, bs))

def bestMatchIdx (va : Value) (b : List Value) (used : List Nat) : Option Nat :=
  (bestMatchAux va used b 0 none).map Prod.fst

/-- The structural loop over the elements of `a`: exact canonical-key match
first, else best structural match with recursion (`recur` is `deepDiff` at the
next fuel), else removed.  Returns the accumulated result and consumed
`b`-indices. -/
def structLoop (recur : Value → Value → String → DiffResult)
    (b : List Value) (path : String) :
    List Value → Nat → List Nat → DiffResult → DiffResult × List Nat
  | [], _, used, acc => (acc, used)
  | va :: rest, i, used, acc =>
    match findExactIdx b used (stableKey va) with
    | some j =>
      structLoop recur b path rest (i + 1) (j :: used)
        { acc with same := acc.same ++ [⟨pathIdx path i, va⟩] }
    | none =>
      match bestMatchIdx va b used with
      | some j =>
        structLoop recur b path rest (i + 1) (j :: used)
          (mergeInto acc (recur va (b.getD j .undef) (pathIdx path i)))
      | none =>
        structLoop recur b path rest (i + 1) used
          { acc with removed := acc.removed ++ [⟨pathIdx path i, va⟩] }

/-- Final pass: each unconsumed element of `b` is added at its real index. -/
def leftoverAdded (used : List Nat) (path : String) :
    List Value → Nat → List DiffEntry
  | [], _ => []
  | vb :: rest, j =>
    if used.contains j then leftoverAdded used path rest (j + 1)
    else ⟨pathIdx path j, vb⟩ :: leftoverAdded used path rest (j + 1)

/-- `diffArrays`: bag mode when every element of both arrays is primitive,
structural three-step alignment otherwise. -/
def diffArraysG (recur : Value → Value → String → DiffResult)
    (a b : List Value) (path : String) : DiffResult :=
  if a.all isPrimitive && b.all isPrimitive then diffArraysPrim a b path
  else
    let (acc, used) := structLoop recur b path a 0 [] emptyDiff
    { acc with added := acc.added ++ leftoverAdded used path b 0 }

/-- The object branch of `deepDiff`: iterate the union of keys (first-insertion
order); keys absent from one side are added/removed, common keys recurse. -/
def objLoop (recur : Value → Value → String → DiffResult)
    (fa fb : List (String × Value)) (path : String) :
    List String → DiffResult → DiffResult
  | [], acc => acc
  | k :: rest, acc =>
    let p := pathKey path k
    if !memKey fa k then
      objLoop recur fa fb path rest { acc with added := acc.added ++ [⟨p, lookupD fb k⟩] }
    else if !memKey fb k then
      objLoop recur fa fb path rest { acc with removed := acc.removed ++ [⟨p, lookupD fa k⟩] }
    else
      objLoop recur fa fb path rest (mergeInto acc (recur (lookupD fa k) (lookupD fb k) p))

/-- `deepDiff`, fuelled: one unit of fuel per nesting level.  Array/array pairs
go to `diffArrays`; object/object pairs recurse over the key union; everything
else is a scalar comparison by canonical key (`(root)` for the empty path). -/
def deepDiffF : Nat → Value → Value → String → DiffResult
  | 0, _, _, _ => emptyDiff
  | fuel + 1, a, b, path =>
    match a, b with
    | .arr xa, .arr xb => diffArraysG (deepDiffF fuel) xa xb path
    | .obj fa, .obj fb =>
      objLoop (deepDiffF fuel) fa fb path (dedupStr (keysOf fa ++ keysOf fb) []) emptyDiff
    | a, b =>
      if stableKey a ≠ stableKey b then
        ⟨[], [], [⟨(if path = "" then "(root)" else path), a, b⟩], []⟩
      else
        ⟨[], [], [], [⟨(if path = "" then "(root)" else path), a⟩]⟩

mutual

/-- Nesting depth of a value: the recursion depth `deepDiff` needs for it. -/
def vdepth : Value → Nat
  | .arr xs => vdepthL xs + 1
  | .obj fs => vdepthF fs + 1
  | _ => 1
termination_by structural v => v

def vdepthL : List Value → Nat
  | [] => 0
  | v :: rest => max (vdepth v) (vdepthL rest)
termination_by structural l => l

def vdepthF : List (String × Value) → Nat
  | [] => 0
  | (_, v) :: rest => max (vdepth v) (vdepthF rest)
termination_by structural l => l

end

/-- `deepDiff(a, b, path)`: the fuel `vdepth a` is always sufficient (the
recursion descends into a subvalue of `a` at every nested call). -/
def deepDiff (a b : Value) (path : String) : DiffResult :=
  deepDiffF (vdepth a) a b path

/-! ## Leaf counting and value classes (for claim C4) -/

mutual

/-- Number of scalar leaves of a value — the decomposition points the spec's
idempotence property counts. -/
def leafCount : Value → Nat
  | .arr xs => leafCountL xs
  | .obj fs => leafCountF fs
  | _ => 1
termination_by structural v => v

def leafCountL : List Value → Nat
  | [] => 0
  | v :: rest => leafCount v + leafCountL rest
termination_by structural l => l

def leafCountF : List (String × Value) → Nat
  | [] => 0
  | (_, v) :: rest => leafCount v + leafCountF rest
termination_by structural l => l

end

mutual

/-- Every array inside the value has only primitive elements
(so the diff always takes bag mode on its arrays). -/
def scalarOnly : Value → Bool
  | .arr xs => xs.all isPrimitive && scalarOnlyL xs
  | .obj fs => scalarOnlyF fs
  | _ => true
termination_by structural v => v

def scalarOnlyL : List Value → Bool
  | [] => true
  | v :: rest => scalarOnly v && scalarOnlyL rest
termination_by structural l => l

def scalarOnlyF : List (String × Value) → Bool
  | [] => true
  | (_, v) :: rest => scalarOnly v && scalarOnlyF rest
termination_by structural l => l

end

/-- Duplicate-free key list, as a boolean. -/
def nodupKeys : List String → Bool
  | [] => true
  | k :: rest => !rest.contains k && nodupKeys rest

mutual

/-- Every object inside the value has pairwise-distinct keys — always true for
values produced by the JS runtime. -/
def wfKeys : Value → Bool
  | .arr xs => wfKeysL xs
  | .obj fs => nodupKeys (keysOf fs) && wfKeysF fs
  | _ => true
termination_by structural v => v

def wfKeysL : List Value → Bool
  | [] => true
  | v :: rest => wfKeys v && wfKeysL rest
termination_by structural l => l

def wfKeysF : List (String × Value) → Bool
  | [] => true
  | (_, v) :: rest => wfKeys v && wfKeysF rest
termination_by structural l => l

end

/-! ## Duplicate & set analyzers -/

/-- `DuplicateEntry`: a value occurring more than once and its count. -/
structure DuplicateEntry where
  item : Value
  count : Nat

/-- `findDuplicates`: group by canonical key, keep counts ≥ 2
(insertion order of first occurrences). -/
def findDuplicates (a : List Value) : List DuplicateEntry :=
  ((countMap a []).filter (fun e => e.n > 1)).map (fun e => ⟨e.v, e.n⟩)

/-- `arraysAreIdentical`: same length and positional canonical-key equality. -/
def arraysAreIdentical (a b : List Value) : Bool :=
  decide (a.length = b.length) &&
    (a.zip b).all (fun p => decide (stableKey p.1 = stableKey p.2))

/-- Distinct canonical keys of an array, in first-occurrence order
(`new Set(arr.map(sortKey))`). -/
def uniqueKeys (a : List Value) : List String :=
  dedupStr (a.map stableKey) []

/-- `sameUniqueSet`: equal sets of distinct canonical keys. -/
def sameUniqueSet (a b : List Value) : Bool :=
  decide ((uniqueKeys a).length = (uniqueKeys b).length) &&
    (uniqueKeys a).all (fun k => (uniqueKeys b).contains k)

/-! ## The tolerant parsers

The relaxed tier rewrites the raw text with a fixed sequence of regex
replacements; each specific regex of the source is embedded as a matcher
(`Option Char → List Char → Option (Nat × List Char)`: previous character of
the original text for look-behind, text at the scan position; result = length
of the consumed match and its replacement) driven by `runRule`, which scans
left to right and resumes after each match, exactly like `String.replace`
with a global regex.  JS `\s` is modelled on the whitespace characters
relevant to ASCII input. -/

def isJsWs (c : Char) : Bool :=
  c.toNat = 32 || c.toNat = 9 || c.toNat = 10 || c.toNat = 13 ||
    c.toNat = 11 || c.toNat = 12 || c.toNat = 160

def countWs : List Char → Nat
  | [] => 0
  | c :: rest => if isJsWs c then countWs rest + 1 else 0

def dropWsLead : List Char → List Char
  | [] => []
  | c :: rest => if isJsWs c then dropWsLead rest else c :: rest

/-- `String.prototype.trim()`. -/
def trimJs (cs : List Char) : List Char :=
  ((dropWsLead ((dropWsLead cs).reverse)).reverse)

/-- Token match at the head of the text. -/
def headTok : List Char → List Char → Bool
  | [], _ => true
  | _ :: _, [] => false
  | t :: ts, c :: cs => t = c && headTok ts cs

def undefTok : List Char := ['u', 'n', 'd', 'e', 'f', 'i', 'n', 'e', 'd']

def infTok : List Char := ['I', 'n', 'f', 'i', 'n', 'i', 't', 'y']

/-- Look-ahead `(?=\s*[set])`. -/
def wsThenOneOf (laSet : List Char) (cs : List Char) : Bool :=
  match cs.drop (countWs cs) with
  | [] => false
  | c :: _ => laSet.contains c

/-- Matcher for `/X\s*undefined(?=\s*[set])/g` with a literal lead character
`X` (rules (1)–(3) of `preprocessJS`). -/
def mUndefAfter (lead : Char) (laSet : List Char) (rep : List Char) :
    Option Char → List Char → Option (Nat × List Char) :=
  fun _ cs =>
    match cs with
    | [] => none
    | c :: rest =>
      if c = lead then
        let w := countWs rest
        let afterWs := rest.drop w
        if headTok undefTok afterWs && wsThenOneOf laSet (afterWs.drop 9) then
          some (1 + w + 9, rep)
        else none
      else none

/-- Matcher for `/(?<=\[)\s*undefined(?=\s*\])/g` (rule (4)). -/
def mUndefAfterLB : Option Char → List Char → Option (Nat × List Char) :=
  fun prev cs =>
    if prev = some '[' then
      let w := countWs cs
      let afterWs := cs.drop w
      if headTok undefTok afterWs && wsThenOneOf [']'] (afterWs.drop 9) then
        some (w + 9, String.data "\"__UNDEFINED__\"")
      else none
    else none

/-- Matcher for `/'/g → "` (naive single-quote conversion). -/
def mQuote : Option Char → List Char → Option (Nat × List Char) :=
  fun _ cs =>
    match cs with
    | [] => none
    | c :: _ => if c = singleQuoteC then some (1, [quoteC]) else none

def isIdentStart (c : Char) : Bool :=
  (('a' ≤ c && c ≤ 'z') || ('A' ≤ c && c ≤ 'Z')) || c = '_' || c = '$'

def isIdentChar (c : Char) : Bool := isIdentStart c || ('0' ≤ c && c ≤ '9')

def identLen : List Char → Nat
  | [] => 0
  | c :: rest => if isIdentChar c then identLen rest + 1 else 0

/-- Matcher for `/([{,]\s*)([a-zA-Z_$][a-zA-Z0-9_$]*)(\s*:)/g → $1"$2"$3`
(unquoted-key quoting). -/
def mKey : Option Char → List Char → Option (Nat × List Char) :=
  fun _ cs =>
    match cs with
    | [] => none
    | c :: rest =>
      if c = lbrace || c = ',' then
        let w := countWs rest
        let id0 := rest.drop w
        match id0 with
        | [] => none
        | i0 :: _ =>
          if isIdentStart i0 then
            let il := identLen id0
            let after := id0.drop il
            let w2 := countWs after
            match after.drop w2 with
            | ':' :: _ =>
              some (1 + w + il + w2 + 1,
                c :: rest.take w ++ [quoteC] ++ id0.take il ++ [quoteC] ++
                  after.take w2 ++ [':'])
            | _ => none
          else none
      else none

/-- Matcher for `/,(\s*[}\]])/g → $1` (trailing-comma removal). -/
def mTrailComma : Option Char → List Char → Option (Nat × List Char) :=
  fun _ cs =>
    match cs with
    | [] => none
    | c :: rest =>
      if c = ',' then
        let w := countWs rest
        match rest.drop w with
        | d :: _ =>
          if d = rbrace || d = ']' then some (1 + w + 1, rest.take w ++ [d])
          else none
        | [] => none
      else none

/-- Matcher for `/:\s*-Infinity/g` or `/:\s*Infinity/g` with the sentinel
replacement of `preprocessJS`. -/
def mInf (negated : Bool) (rep : List Char) :
    Option Char → List Char → Option (Nat × List Char) :=
  fun _ cs =>
    match cs with
    | [] => none
    | c :: rest =>
      if c = ':' then
        let w := countWs rest
        let t := rest.drop w
        if negated then
          match t with
          | '-' :: t2 => if headTok infTok t2 then some (1 + w + 9, rep) else none
          | _ => none
        else
          if headTok infTok t then some (1 + w + 8, rep) else none
      else none

/-- Matcher for `/:\s*undefined/g → ": null"` (ObjectDiffChecker tier 2;
no look-ahead). -/
def mUndefNull : Option Char → List Char → Option (Nat × List Char) :=
  fun _ cs =>
    match cs with
    | [] => none
    | c :: rest =>
      if c = ':' then
        let w := countWs rest
        if headTok undefTok (rest.drop w) then
          some (1 + w + 9, String.data ": null")
        else none
      else none

/-- Matcher for `/:\s*-?Infinity/g → ": null"` (ObjectDiffChecker tier 2). -/
def mInfNull : Option Char → List Char → Option (Nat × List Char) :=
  fun _ cs =>
    match cs with
    | [] => none
    | c :: rest =>
      if c = ':' then
        let w := countWs rest
        match rest.drop w with
        | '-' :: t2 =>
          if headTok infTok t2 then some (1 + w + 9, String.data ": null") else none
        | t =>
          if headTok infTok t then some (1 + w + 8, String.data ": null") else none
      else none

/-- Global-regex replacement driver: leftmost match, splice the replacement,
resume after the matched text of the original string (matches never overlap,
replacements are never rescanned — JS `replace` with `/g`). -/
def runRuleF (m : Option Char → List Char → Option (Nat × List Char)) :
    Nat → Option Char → List Char → List Char
  | 0, _, cs => cs
  | fuel + 1, prev, cs =>
    match cs with
    | [] => []
    | c :: rest =>
      match m prev cs with
      | some (len, rep) =>
        rep ++
          runRuleF m fuel
            (match (cs.take len).getLast? with
             | some d => some d
             | none => prev)
            (cs.drop len)
      | none => c :: runRuleF m fuel (some c) rest

def runRule (m : Option Char → List Char → Option (Nat × List Char))
    (cs : List Char) : List Char :=
  runRuleF m (cs.length + 1) none cs

/-- `preprocessJS` (ArrayDiffChecker): the nine regex replacements in source
order. -/
def preprocessJS (raw : List Char) : List Char :=
  let s := trimJs raw
  let s := runRule (mUndefAfter ':' [',', rbrace, ']'] (String.data ": \"__UNDEFINED__\"")) s
  let s := runRule (mUndefAfter ',' [',', ']'] (String.data ", \"__UNDEFINED__\"")) s
  let s := runRule (mUndefAfter '[' [',', ']'] (String.data "[\"__UNDEFINED__\"")) s
  let s := runRule mUndefAfterLB s
  let s := runRule mQuote s
  let s := runRule mKey s
  let s := runRule mTrailComma s
  let s := runRule (mInf true (String.data ": \"-Infinity__\"")) s
  let s := runRule (mInf false (String.data ": \"Infinity__\"")) s
  s

/-- The tier-2 rewrite of `smartParse` (ObjectDiffChecker): quotes, unquoted
keys, trailing commas, then `undefined` and `±Infinity` collapsed to `null`. -/
def preprocessJSObj (cs : List Char) : List Char :=
  let s := runRule mQuote cs
  let s := runRule mKey s
  let s := runRule mTrailComma s
  let s := runRule mUndefNull s
  let s := runRule mInfNull s
  s

mutual

/-- `revive`: substitute the `undefined` sentinel string back, recursively. -/
def revive : Value → Value
  | .str s => if s = "__UNDEFINED__" then .undef else .str s
  | .arr xs => .arr (reviveL xs)
  | .obj fs => .obj (reviveF fs)
  | v => v
termination_by structural v => v

def reviveL : List Value → List Value
  | [] => []
  | v :: rest => revive v :: reviveL rest
termination_by structural l => l

def reviveF : List (String × Value) → List (String × Value)
  | [] => []
  | (k, v) :: rest => (k, revive v) :: reviveF rest
termination_by structural l => l

end

/-! ## Strict JSON parser (`JSON.parse`)

Recursive descent with fuel (`2·|input| + 4` always suffices: every two
nested calls consume at least one character).  Numbers are restricted to the
integer grammar of the model (a fraction or exponent continuation fails);
duplicate keys are accumulated in order (the JS runtime would keep the last —
no claim involves duplicate-key documents). -/

def skipWsJ : List Char → List Char
  | [] => []
  | c :: rest =>
    if c.toNat = 32 || c.toNat = 9 || c.toNat = 10 || c.toNat = 13 then skipWsJ rest
    else c :: rest

def hexVal (c : Char) : Option Nat :=
  if '0' ≤ c && c ≤ '9' then some (c.toNat - 48)
  else if 'a' ≤ c && c ≤ 'f' then some (c.toNat - 87)
  else if 'A' ≤ c && c ≤ 'F' then some (c.toNat - 55)
  else none

/-- String body after the opening quote: content and remaining text. -/
def parseStrChars : List Char → Option (List Char × List Char)
  | [] => none
  | c :: rest =>
    if c = quoteC then some ([], rest)
    else if c = backslashC then
      match rest with
      | [] => none
      | e :: rest2 =>
        if e = quoteC || e = backslashC || e = '/' then
          (parseStrChars rest2).map (fun p => (e :: p.1, p.2))
        else if e = 'b' then (parseStrChars rest2).map (fun p => (Char.ofNat 8 :: p.1, p.2))
        else if e = 'f' then (parseStrChars rest2).map (fun p => (Char.ofNat 12 :: p.1, p.2))
        else if e = 'n' then (parseStrChars rest2).map (fun p => (Char.ofNat 10 :: p.1, p.2))
        else if e = 'r' then (parseStrChars rest2).map (fun p => (Char.ofNat 13 :: p.1, p.2))
        else if e = 't' then (parseStrChars rest2).map (fun p => (Char.ofNat 9 :: p.1, p.2))
        else if e = 'u' then
          match rest2 with
          | h1 :: h2 :: h3 :: h4 :: rest3 =>
            match hexVal h1, hexVal h2, hexVal h3, hexVal h4 with
            | some a, some b, some c3, some d =>
              (parseStrChars rest3).map
                (fun p => (Char.ofNat (((a * 16 + b) * 16 + c3) * 16 + d) :: p.1, p.2))
            | _, _, _, _ => none
          | _ => none
        else none
    else if c.toNat < 32 then none
    else (parseStrChars rest).map (fun p => (c :: p.1, p.2))

def digitVal (c : Char) : Option Nat :=
  if '0' ≤ c && c ≤ '9' then some (c.toNat - 48) else none

def takeDigits : List Char → List Nat × List Char
  | [] => ([], [])
  | c :: rest =>
    match digitVal c with
    | some d =>
      let p := takeDigits rest
      (d :: p.1, p.2)
    | none => ([], c :: rest)

def digitsToNat : Nat → List Nat → Nat
  | acc, [] => acc
  | acc, d :: ds => digitsToNat (acc * 10 + d) ds

/-- JSON number token (integer grammar of the model). -/
def parseNum (cs : List Char) : Option (Value × List Char) :=
  let neg := match cs with
    | '-' :: _ => true
    | _ => false
  let cs1 := if neg then cs.drop 1 else cs
  match takeDigits cs1 with
  | ([], _) => none
  | (d :: ds, rest) =>
    if d = 0 && ds ≠ [] then none
    else
      let n : Int := digitsToNat 0 (d :: ds)
      let v : Value := .num (if neg then -n else n)
      match rest with
      | c :: _ => if c = '.' || c = 'e' || c = 'E' then none else some (v, rest)
      | [] => some (v, [])

mutual

def parseValF : Nat → List Char → Option (Value × List Char)
  | 0, _ => none
  | fuel + 1, cs =>
    match skipWsJ cs with
    | [] => none
    | c :: rest =>
      if c = lbrace then
        match skipWsJ rest with
        | [] => none
        | d :: rest2 =>
          if d = rbrace then some (.obj [], rest2)
          else parseMembersF fuel (d :: rest2) []
      else if c = '[' then
        match skipWsJ rest with
        | [] => none
        | d :: rest2 =>
          if d = ']' then some (.arr [], rest2)
          else parseElemsF fuel (d :: rest2) []
      else if c = quoteC then
        (parseStrChars rest).map (fun p => (.str (String.mk p.1), p.2))
      else if c = 't' then
        match rest with
        | 'r' :: 'u' :: 'e' :: rest2 => some (.bool true, rest2)
        | _ => none
      else if c = 'f' then
        match rest with
        | 'a' :: 'l' :: 's' :: 'e' :: rest2 => some (.bool false, rest2)
        | _ => none
      else if c = 'n' then
        match rest with
        | 'u' :: 'l' :: 'l' :: rest2 => some (.null, rest2)
        | _ => none
      else parseNum (c :: rest)

def parseElemsF : Nat → List Char → List Value → Option (Value × List Char)
  | 0, _, _ => none
  | fuel + 1, cs, acc =>
    match parseValF fuel cs with
    | none => none
    | some (v, rest) =>
      match skipWsJ rest with
      | ',' :: rest2 => parseElemsF fuel rest2 (acc ++ [v])
      | ']' :: rest2 => some (.arr (acc ++ [v]), rest2)
      | _ => none

def parseMembersF : Nat → List Char → List (String × Value) →
    Option (Value × List Char)
  | 0, _, _ => none
  | fuel + 1, cs, acc =>
    match skipWsJ cs with
    | [] => none
    | c :: rest =>
      if c = quoteC then
        match parseStrChars rest with
        | none => none
        | some (key, rest2) =>
          match skipWsJ rest2 with
          | ':' :: rest3 =>
            match parseValF fuel rest3 with
            | none => none
            | some (v, rest4) =>
              match skipWsJ rest4 with
              | ',' :: rest5 => parseMembersF fuel rest5 (acc ++ [(String.mk key, v)])
              | d :: rest5 =>
                if d = rbrace then some (.obj (acc ++ [(String.mk key, v)]), rest5)
                else none
              | [] => none
          | _ => none
      else none

end

/-- `JSON.parse`: a single value with only trailing whitespace allowed. -/
def jsonParse (cs : List Char) : Option Value :=
  match parseValF (2 * cs.length + 4) cs with
  | some (v, rest) =>
    match skipWsJ rest with
    | [] => some v
    | _ => none
  | none => none

/-! ## Parse pipelines and analysis entry points -/

/-- `safeParse` (ArrayDiffChecker): strict JSON, then the regex-normalized
tier with sentinel revival, then the `Function` evaluation tier.  The last
tier executes arbitrary JS in the source and is a parameter `ev` here; every
theorem about inputs settled at tiers 1–2 holds for all `ev`. -/
def safeParseE (ev : String → Except String Value) (raw : String) :
    Except String (List Value) :=
  let trimmed := trimJs raw.data
  if trimmed.isEmpty then .error "Empty input."
  else
    match jsonParse trimmed with
    | some (.arr xs) => .ok xs
    | _ =>
      match jsonParse (preprocessJS trimmed) with
      | some (.arr xs) => .ok (reviveL xs)
      | _ =>
        match ev (String.mk trimmed) with
        | .ok (.arr xs) => .ok xs
        | .ok _ => .error "Invalid format: Input is not an array."
        | .error m => .error ("Invalid format: " ++ m)

/-- The result record of `analyzeArrays`. -/
structure AnalysisResults where
  length1 : Nat
  length2 : Nat
  uniqueLength1 : Nat
  uniqueLength2 : Nat
  duplicates1 : List DuplicateEntry
  duplicates2 : List DuplicateEntry
  areIdentical : Bool
  sameUniqueElements : Bool
  diff : DiffResult

/-- `analyzeArrays` (ArrayDiffChecker): parse both sides (the first failure
aborts the comparison with that parse error), then assemble the report. -/
def analyzeArraysE (ev : String → Except String Value) (s1 s2 : String) :
    Except String AnalysisResults :=
  match safeParseE ev s1 with
  | .error e => .error e
  | .ok arr1 =>
    match safeParseE ev s2 with
    | .error e => .error e
    | .ok arr2 =>
      .ok
        { length1 := arr1.length
          length2 := arr2.length
          uniqueLength1 := (uniqueKeys arr1).length
          uniqueLength2 := (uniqueKeys arr2).length
          duplicates1 := findDuplicates arr1
          duplicates2 := findDuplicates arr2
          areIdentical := arraysAreIdentical arr1 arr2
          sameUniqueElements := sameUniqueSet arr1 arr2
          diff := deepDiff (.arr arr1) (.arr arr2) "" }

/-- The record returned by `smartParse`.  The pretty-printed `fixed` text of
the evaluation tier (`JSON.stringify(val, null, 2)`) is not modelled (no
claim depends on it); tier 2 reports its normalized text. -/
structure SParseResult where
  value : Value
  format : String
  fixed : Option String

/-- `smartParse` (ObjectDiffChecker): strict JSON, the `null`-collapsing
regex tier, then the evaluation tier restricted to objects/arrays. -/
def smartParseE (ev : String → Except String Value) (raw : String) :
    Except String SParseResult :=
  let trimmed := trimJs raw.data
  if trimmed.isEmpty then .error "Empty input"
  else
    match jsonParse trimmed with
    | some v => .ok ⟨v, "json", none⟩
    | none =>
      let s := preprocessJSObj trimmed
      match jsonParse s with
      | some v => .ok ⟨v, "js", some (String.mk s)⟩
      | none =>
        match ev (String.mk trimmed) with
        | .ok (.obj fs) => .ok ⟨.obj fs, "js-eval", none⟩
        | .ok (.arr xs) => .ok ⟨.arr xs, "js-eval", none⟩
        | .ok _ => .error "Could not parse input as JSON or JS object: Not an object"
        | .error m => .error ("Could not parse input as JSON or JS object: " ++ m)

mutual

/-- `normalizeKeyOrder`: recursively sort object keys alphabetically (array
order untouched), reporting whether anything was reordered. -/
def normalizeV : Value → Value × Bool
  | .arr xs =>
    let p := normalizeL xs
    (.arr p.1, p.2)
  | .obj fs =>
    let p := normalizeF fs
    let origKeys := keysOf fs
    let sorted := sortKeys origKeys
    let keyChanged := (sorted.zip origKeys).any (fun q => decide (q.1 ≠ q.2))
    (.obj (sorted.map (fun k => (k, lookupD p.1 k))), keyChanged || p.2)
  | v => (v, false)
termination_by structural v => v

def normalizeL : List Value → List Value × Bool
  | [] => ([], false)
  | v :: rest =>
    let a := normalizeV v
    let b := normalizeL rest
    (a.1 :: b.1, a.2 || b.2)
termination_by structural l => l

def normalizeF : List (String × Value) → List (String × Value) × Bool
  | [] => ([], false)
  | (k, v) :: rest =>
    let a := normalizeV v
    let b := normalizeF rest
    ((k, a.1) :: b.1, a.2 || b.2)
termination_by structural l => l

end

/-- Is the parsed value an object or an array (the shape check of
`analyze`)? -/
def isComposite : Value → Bool
  | .obj _ => true
  | .arr _ => true
  | _ => false

/-- `analyze` (ObjectDiffChecker): parse both sides, check both shapes with
side-identifying errors, normalize key order, diff. -/
def analyzeObjE (ev : String → Except String Value) (s1 s2 : String) :
    Except String DiffResult :=
  match smartParseE ev s1 with
  | .error e => .error e
  | .ok r1 =>
    match smartParseE ev s2 with
    | .error e => .error e
    | .ok r2 =>
      if !isComposite r1.value then
        .error "Object A is not a valid object or array"
      else if !isComposite r2.value then
        .error "Object B is not a valid object or array"
      else
        .ok (deepDiff (normalizeV r1.value).1 (normalizeV r2.value).1 "")

/-- The disabled evaluation tier used to state closed theorems (their
statements are tier-3-independent: tiers 1–2 already settle the input). -/
def evalStub : String → Except String Value := fun _ => .error "eval tier"

/-! ## Proof measures for the bag-mode counting arguments -/

/-- Total of the occurrence counts of a count map. -/
def sumN (l : List CountEntry) : Nat := (l.map CountEntry.n).sum

/-- Keys of a count map. -/
def keysC (l : List CountEntry) : List String := l.map CountEntry.k

/-- The number of `same` entries the first bag loop emits for one `countA`
entry. -/
def sameNOf (cB : List CountEntry) (e : CountEntry) : Nat :=
  match lookupCount cB e.k with
  | none => 0
  | some eb => min e.n eb.n

/-- The number of `added` entries the first bag loop emits for one `countA`
entry. -/
def addNOf (cB : List CountEntry) (e : CountEntry) : Nat :=
  match lookupCount cB e.k with
  | none => 0
  | some eb => eb.n - min e.n eb.n

/-- The occurrence count `countB` stores under a key (0 when absent). -/
def lookupN (cB : List CountEntry) (k : String) : Nat :=
  match lookupCount cB k with
  | none => 0
  | some eb => eb.n

/-- Indices of `b` whose element has canonical key `κ`. -/
def matchIdxs (b : List Value) (κ : String) : List Nat :=
  (List.range b.length).filter (fun j => decide (stableKey (b.getD j .undef) = κ))

/-! ## The exact-match scan of the structural loop (claim C1) -/

theorem contains_eq_decide_mem (used : List Nat) (j : Nat) :
    used.contains j = decide (j ∈ used) := by
  simp [List.contains, List.elem_eq_mem]

theorem findExactAux_some {used : List Nat} {ka : String} :
    ∀ {l : List Value} {j0 j : Nat}, findExactAux used ka l j0 = some j →
      j0 ≤ j ∧ j - j0 < l.length ∧ j ∉ used ∧
        stableKey (l.getD (j - j0) .undef) = ka ∧
        ∀ t, t < j - j0 → (j0 + t) ∈ used ∨ stableKey (l.getD t .undef) ≠ ka := by
  intro l
  induction l with
  | nil => intro j0 j h; simp [findExactAux] at h
  | cons vb rest ih =>
    intro j0 j h
    simp only [findExactAux, contains_eq_decide_mem] at h
    by_cases hmem : j0 ∈ used
    · have hd : decide (j0 ∈ used) = true := by simpa using hmem
      simp only [hd, Bool.not_true, Bool.false_and] at h
      rw [if_neg (by simp)] at h
      obtain ⟨h1, h2, h3, h4, h5⟩ := ih h
      refine ⟨by omega, ?_, h3, ?_, ?_⟩
      · simp only [List.length_cons]; omega
      · have heq : j - j0 = (j - (j0 + 1)) + 1 := by omega
        rw [heq]; simpa using h4
      · intro t ht
        cases t with
        | zero => exact Or.inl (by simpa using hmem)
        | succ t' =>
          have := h5 t' (by omega)
          simpa [Nat.add_assoc, Nat.add_comm 1 t'] using this
    · have hd : decide (j0 ∈ used) = false := by simpa using hmem
      by_cases hk : stableKey vb = ka
      · have hk' : decide (stableKey vb = ka) = true := by simpa using hk
        simp only [hd, hk', Bool.not_false, Bool.true_and] at h
        rw [if_pos trivial] at h
        have hj : j0 = j := by injection h
        subst hj
        exact ⟨le_refl _, by simp, hmem, by simpa using hk, by omega⟩
      · have hk' : decide (stableKey vb = ka) = false := by simpa using hk
        simp only [hd, hk', Bool.not_false, Bool.true_and] at h
        rw [if_neg (by simp)] at h
        obtain ⟨h1, h2, h3, h4, h5⟩ := ih h
        refine ⟨by omega, ?_, h3, ?_, ?_⟩
        · simp only [List.length_cons]; omega
        · have heq : j - j0 = (j - (j0 + 1)) + 1 := by omega
          rw [heq]; simpa using h4
        · intro t ht
          cases t with
          | zero => exact Or.inr (by simpa using hk)
          | succ t' =>
            have := h5 t' (by omega)
            simpa [Nat.add_assoc, Nat.add_comm 1 t'] using this

theorem findExactAux_none {used : List Nat} {ka : String} :
    ∀ {l : List Value} {j0 : Nat}, findExactAux used ka l j0 = none →
      ∀ t, t < l.length → (j0 + t) ∈ used ∨ stableKey (l.getD t .undef) ≠ ka := by
  intro l
  induction l with
  | nil => intro j0 _ t ht; simp at ht
  | cons vb rest ih =>
    intro j0 h t ht
    simp only [findExactAux, contains_eq_decide_mem] at h
    by_cases hcond : ((!decide (j0 ∈ used)) && decide (stableKey vb = ka)) = true
    · rw [if_pos hcond] at h
      exact absurd h (by simp)
    · rw [if_neg hcond] at h
      cases t with
      | zero =>
        by_cases hmem : j0 ∈ used
        · exact Or.inl (by simpa using hmem)
        · right
          intro hkk
          have hd : decide (j0 ∈ used) = false := by simpa using hmem
          have hk' : decide (stableKey vb = ka) = true := by
            simpa using hkk
          simp [hd, hk'] at hcond
      | succ t' =>
        have := ih h t' (by simpa using Nat.lt_of_succ_lt_succ ht)
        simpa [Nat.add_assoc, Nat.add_comm 1 t'] using this

/-! ## Order lemmas for the key sort -/

theorem strLe_total (a b : List Char) : strLe a b = true ∨ strLe b a = true := by
  induction a generalizing b with
  | nil => exact Or.inl rfl
  | cons c cs ih =>
    cases b with
    | nil => exact Or.inr rfl
    | cons d ds =>
      rcases lt_trichotomy c d with h | h | h
      · left; simp [strLe, h]
      · subst h
        rcases ih ds with h2 | h2
        · left; simp [strLe, lt_irrefl, h2]
        · right; simp [strLe, lt_irrefl, h2]
      · right; simp [strLe, h]

theorem strLe_antisymm {a b : List Char} (h1 : strLe a b = true)
    (h2 : strLe b a = true) : a = b := by
  induction a generalizing b with
  | nil =>
    cases b with
    | nil => rfl
    | cons d ds => simp [strLe] at h2
  | cons c cs ih =>
    cases b with
    | nil => simp [strLe] at h1
    | cons d ds =>
      rcases lt_trichotomy c d with h | h | h
      · simp [strLe, asymm h, ne_of_gt h] at h2
      · subst h
        simp only [strLe, lt_irrefl, if_false, if_pos rfl, if_neg (lt_irrefl c)] at h1 h2
        rw [ih h1 h2]
      · simp [strLe, asymm h, ne_of_gt h] at h1

theorem strLe_trans {a b c : List Char} (h1 : strLe a b = true)
    (h2 : strLe b c = true) : strLe a c = true := by
  induction a generalizing b c with
  | nil => rfl
  | cons x xs ih =>
    cases b with
    | nil => simp [strLe] at h1
    | cons y ys =>
      cases c with
      | nil => simp [strLe] at h2
      | cons z zs =>
        rcases lt_trichotomy x y with hxy | hxy | hxy
        · rcases lt_trichotomy y z with hyz | hyz | hyz
          · simp [strLe, lt_trans hxy hyz]
          · subst hyz; simp [strLe, hxy]
          · simp [strLe, asymm hyz, ne_of_gt hyz] at h2
        · subst hxy
          rcases lt_trichotomy x z with hxz | hxz | hxz
          · simp [strLe, hxz]
          · subst hxz
            simp only [strLe, lt_irrefl, if_false, if_pos rfl, if_neg (lt_irrefl x)] at h1 h2 ⊢
            exact ih h1 h2
          · simp [strLe, asymm hxz, ne_of_gt hxz] at h2
        · simp [strLe, asymm hxy, ne_of_gt hxy] at h1

theorem insertKey_comm (a b : String) (s : List String) :
    insertKey a (insertKey b s) = insertKey b (insertKey a s) := by
  induction s with
  | nil =>
    by_cases hab : strLe a.data b.data = true
    · by_cases hba : strLe b.data a.data = true
      · have : a = b := by
          have := strLe_antisymm hab hba
          exact String.ext this
        subst this; rfl
      · simp only [insertKey, hab, if_true, if_pos hab,
          Bool.not_eq_true] at *
        simp [insertKey, hab, hba]
    · have hba : strLe b.data a.data = true := by
        rcases strLe_total a.data b.data with h | h
        · exact absurd h hab
        · exact h
      simp [insertKey, hab, hba]
  | cons c s ih =>
    by_cases hbc : strLe b.data c.data = true
    · by_cases hac : strLe a.data c.data = true
      · -- both a and b sort before or at c
        by_cases hab : strLe a.data b.data = true
        · by_cases hba : strLe b.data a.data = true
          · have : a = b := String.ext (strLe_antisymm hab hba)
            subst this; rfl
          · simp [insertKey, hbc, hac, hab, hba]
        · have hba : strLe b.data a.data = true := by
            rcases strLe_total a.data b.data with h | h
            · exact absurd h hab
            · exact h
          simp [insertKey, hbc, hac, hab, hba]
      · -- b before c, c before a
        have hab : strLe a.data b.data ≠ true := by
          intro h
          exact hac (strLe_trans h hbc)
        simp [insertKey, hbc, hac, hab]
    · by_cases hac : strLe a.data c.data = true
      · -- a before c, c before b
        have hba : strLe b.data a.data ≠ true := by
          intro h
          exact hbc (strLe_trans h hac)
        simp [insertKey, hbc, hac, hba]
      · -- c before both: recurse
        simp [insertKey, hbc, hac, ih]

theorem sortKeys_perm {l l' : List String} (h : l.Perm l') :
    sortKeys l = sortKeys l' := by
  induction h with
  | nil => rfl
  | cons x _ ih => simp [sortKeys, ih]
  | swap x y l => simp [sortKeys, insertKey_comm]
  | trans _ _ ih1 ih2 => rw [ih1, ih2]

/-! ## Lookup is permutation-invariant on duplicate-free keys -/

theorem lookupD_perm {fs fs' : List (String × Value)} (h : fs.Perm fs')
    (hnd : (keysOf fs).Nodup) (k : String) : lookupD fs k = lookupD fs' k := by
  induction h with
  | nil => rfl
  | cons x h ih =>
    simp only [keysOf, List.map_cons, List.nodup_cons] at hnd
    simp only [lookupD]
    split
    · rfl
    · exact ih hnd.2
  | swap x y l =>
    simp only [keysOf, List.map_cons, List.nodup_cons, List.mem_cons] at hnd
    have hxy : y.1 ≠ x.1 := fun hh => hnd.1 (Or.inl hh)
    simp only [lookupD]
    by_cases h1 : y.1 = k
    · have h2 : x.1 ≠ k := fun hh => hxy (h1.trans hh.symm)
      rw [if_pos h1, if_neg h2, if_pos h1]
    · rw [if_neg h1]
      by_cases h2 : x.1 = k
      · rw [if_pos h2, if_pos h2]
      · rw [if_neg h2, if_neg h2, if_neg h1]
  | trans h1 h2 ih1 ih2 =>
    refine (ih1 hnd).trans (ih2 ?_)
    exact ((h1.map Prod.fst).nodup_iff).mp hnd

theorem stableKeyLook_eq (fs : List (String × Value)) (k : String) :
    stableKeyLook fs k = stableKey (lookupD fs k) := by
  induction fs with
  | nil => rfl
  | cons p rest ih =>
    simp only [stableKeyLook, lookupD]
    split <;> simp [ih]

/-! ## Digit heads for number keys -/

theorem natCharsAux_spec :
    ∀ fuel n acc, n < fuel →
      ∃ ds, natCharsAux fuel n acc = ds ++ acc ∧ ds ≠ [] ∧
        ∀ c ∈ ds, ∃ d, d < 10 ∧ c = digitChar d := by
  intro fuel
  induction fuel with
  | zero => intro n acc h; omega
  | succ fuel ih =>
    intro n acc h
    by_cases h10 : n < 10
    · exact ⟨[digitChar n], by simp [natCharsAux, h10], by simp,
        fun c hc => ⟨n, h10, by simpa using hc⟩⟩
    · have hlt : n / 10 < fuel := by omega
      obtain ⟨ds, hds, hne, hdig⟩ := ih (n / 10) (digitChar (n % 10) :: acc) hlt
      refine ⟨ds ++ [digitChar (n % 10)], ?_, by simp, ?_⟩
      · simp [natCharsAux, h10, hds]
      · intro c hc
        rcases List.mem_append.mp hc with hc | hc
        · exact hdig c hc
        · exact ⟨n % 10, by omega, by simpa using hc⟩

theorem digitChar_ne (d : Nat) (hd : d < 10) :
    digitChar d ≠ '_' ∧ digitChar d ≠ 'n' := by
  interval_cases d <;> exact ⟨by decide, by decide⟩

/-- Head character of a number's canonical key: a minus sign or a digit. -/
theorem numKey_head (n : Int) :
    ∃ c, (stableKey (.num n)).data.head? = some c ∧
      (c = '-' ∨ ∃ d, d < 10 ∧ c = digitChar d) := by
  show ∃ c, (String.mk (intChars n)).data.head? = some c ∧ _
  obtain ⟨ds, hds, hne, hdig⟩ :=
    natCharsAux_spec (n.natAbs + 1) n.natAbs [] (Nat.lt_succ_self _)
  unfold intChars natChars
  by_cases hneg : n < 0
  · exact ⟨'-', by simp [hneg], Or.inl rfl⟩
  · rw [if_neg hneg]
    cases hds' : ds with
    | nil => exact absurd hds' hne
    | cons c rest =>
      refine ⟨c, ?_, Or.inr (hdig c (by simp [hds']))⟩
      show (natCharsAux (n.natAbs + 1) n.natAbs []).head? = some c
      rw [hds, hds']
      rfl

theorem numKey_ne_of_head (n : Int) (s : String) (c₀ : Char)
    (hs : s.data.head? = some c₀) (h1 : c₀ ≠ '-')
    (h2 : ∀ d, d < 10 → c₀ ≠ digitChar d) : stableKey (.num n) ≠ s := by
  intro h
  obtain ⟨c, hc, hd⟩ := numKey_head n
  rw [h, hs] at hc
  have hcc : c₀ = c := by injection hc
  subst hcc
  rcases hd with hd | ⟨d, hdlt, hdc⟩
  · exact h1 hd
  · exact h2 d hdlt hdc

theorem strKey_head (s : String) :
    (stableKey (.str s)).data.head? = some quoteC := rfl

theorem strKey_ne_of_head (s t : String) (c₀ : Char)
    (ht : t.data.head? = some c₀) (h1 : c₀ ≠ quoteC) : stableKey (.str s) ≠ t := by
  intro h
  have h2 := strKey_head s
  rw [h, ht] at h2
  have h3 : c₀ = quoteC := by injection h2
  exact h1 h3

/-- C3: the canonical key function is invariant under object key insertion
order (for duplicate-free key lists — JS objects always have unique keys);
`Undefined`, `Null`, `NaN`, `PosInfinity`, `NegInfinity` get pairwise-distinct
sentinel keys; and none of the five sentinel keys equals the key of any
number or of any string (including strings whose content is the sentinel
text itself). -/
theorem claim_C3 :
    (∀ (fs fs' : List (String × Value)), fs.Perm fs' → (keysOf fs).Nodup →
      stableKey (.obj fs) = stableKey (.obj fs')) ∧
    List.Pairwise (· ≠ ·)
      [stableKey .undef, stableKey .null, stableKey .nan,
       stableKey .posInf, stableKey .negInf] ∧
    (∀ n : Int,
      stableKey (.num n) ≠ stableKey .undef ∧ stableKey (.num n) ≠ stableKey .null ∧
      stableKey (.num n) ≠ stableKey .nan ∧ stableKey (.num n) ≠ stableKey .posInf ∧
      stableKey (.num n) ≠ stableKey .negInf) ∧
    (∀ s : String,
      stableKey (.str s) ≠ stableKey .undef ∧ stableKey (.str s) ≠ stableKey .null ∧
      stableKey (.str s) ≠ stableKey .nan ∧ stableKey (.str s) ≠ stableKey .posInf ∧
      stableKey (.str s) ≠ stableKey .negInf) := by
  refine ⟨?_, by decide, ?_, ?_⟩
  · intro fs fs' h hnd
    have h1 : sortKeys (keysOf fs) = sortKeys (keysOf fs') :=
      sortKeys_perm (h.map Prod.fst)
    have h2 : ∀ k, stableKeyLook fs k = stableKeyLook fs' k := fun k => by
      rw [stableKeyLook_eq, stableKeyLook_eq, lookupD_perm h hnd]
    simp only [stableKey]
    rw [h1]
    have h3 :
        List.map (fun k => jsonQuote k ++ ":" ++ stableKeyLook fs k)
            (sortKeys (keysOf fs')) =
          List.map (fun k => jsonQuote k ++ ":" ++ stableKeyLook fs' k)
            (sortKeys (keysOf fs')) :=
      List.map_congr_left (fun k _ => by rw [h2])
    rw [h3]
  · intro n
    exact ⟨numKey_ne_of_head n _ '_' rfl (by decide)
        (fun d hd => ((digitChar_ne d hd).1).symm),
      numKey_ne_of_head n _ 'n' rfl (by decide)
        (fun d hd => ((digitChar_ne d hd).2).symm),
      numKey_ne_of_head n _ '_' rfl (by decide)
        (fun d hd => ((digitChar_ne d hd).1).symm),
      numKey_ne_of_head n _ '_' rfl (by decide)
        (fun d hd => ((digitChar_ne d hd).1).symm),
      numKey_ne_of_head n _ '_' rfl (by decide)
        (fun d hd => ((digitChar_ne d hd).1).symm)⟩
  · intro s
    exact ⟨strKey_ne_of_head s _ '_' rfl (by decide),
      strKey_ne_of_head s _ 'n' rfl (by decide),
      strKey_ne_of_head s _ '_' rfl (by decide),
      strKey_ne_of_head s _ '_' rfl (by decide),
      strKey_ne_of_head s _ '_' rfl (by decide)⟩

/-- Witness for C3 at the spec's concrete example: `{a:1,b:2}` and `{b:2,a:1}`
get the same canonical key. -/
theorem claim_C3_witness :
    stableKey (.obj [("a", .num 1), ("b", .num 2)]) =
      stableKey (.obj [("b", .num 2), ("a", .num 1)]) :=
  claim_C3.1 _ _
    (List.Perm.swap (("b", Value.num 2) : String × Value) ("a", Value.num 1) [])
    (by decide)

/-! ## Canonical keys of different kinds start with different characters -/

theorem stableKey_arr_head (xs : List Value) :
    (stableKey (.arr xs)).data.head? = some '[' := by
  show ((("[" ++ joinComma (stableKeyList xs)) ++ "]")).data.head? = some '['
  rw [String.data_append, String.data_append]
  rfl

theorem stableKey_obj_head (fs : List (String × Value)) :
    (stableKey (.obj fs)).data.head? = some lbrace := by
  show ((String.mk [lbrace] ++ _) ++ String.mk [rbrace]).data.head? = some lbrace
  rw [String.data_append, String.data_append]
  rfl

theorem stableKey_arr_ne_obj (xs : List Value) (fs : List (String × Value)) :
    stableKey (.arr xs) ≠ stableKey (.obj fs) := by
  intro h
  have h2 : some '[' = some lbrace := by
    rw [← stableKey_arr_head xs, ← stableKey_obj_head fs, h]
  simp only [Option.some.injEq] at h2
  exact absurd h2 (by decide)

/-- C9: array vs plain object at the top of a `deepDiff` call is treated as an
atomic scalar change. -/
theorem claim_C9 (xs : List Value) (fs : List (String × Value)) (path : String) :
    deepDiff (.arr xs) (.obj fs) path =
      ⟨[], [], [⟨(if path = "" then "(root)" else path), .arr xs, .obj fs⟩], []⟩ ∧
    deepDiff (.obj fs) (.arr xs) path =
      ⟨[], [], [⟨(if path = "" then "(root)" else path), .obj fs, .arr xs⟩], []⟩ := by
  constructor
  · show deepDiffF (vdepthL xs + 1) _ _ _ = _
    simp only [deepDiffF]
    rw [if_pos (stableKey_arr_ne_obj xs fs)]
  · show deepDiffF (vdepthF fs + 1) _ _ _ = _
    simp only [deepDiffF]
    rw [if_pos (Ne.symm (stableKey_arr_ne_obj xs fs))]

/-- C5: the spec's bag-mode example A=[1,2,2,3], B=[2,3,3,4]: two `same`
entries (2 and 3), two `removed` entries (1 and 2), two `added` entries
(3 and 4), no `changed` entries. -/
theorem claim_C5 :
    deepDiff (.arr [.num 1, .num 2, .num 2, .num 3])
      (.arr [.num 2, .num 3, .num 3, .num 4]) "" =
      ⟨[⟨"[+0]", .num 3⟩, ⟨"[+1]", .num 4⟩],
       [⟨"[-0]", .num 1⟩, ⟨"[-1]", .num 2⟩],
       [],
       [⟨"[0]", .num 2⟩, ⟨"[1]", .num 3⟩]⟩ := rfl

/-- C6: the structural-alignment example A=[{id:1,name:"a"}], B=[{id:1,name:"b"}]:
the id-key bonus pairs the two objects, the diff recurses into the pair, and the
result is exactly one `changed` entry at "[0].name" (from "a" to "b") and one
`same` entry at "[0].id" (value 1). -/
theorem claim_C6 :
    deepDiff (.arr [.obj [("id", .num 1), ("name", .str "a")]])
      (.arr [.obj [("id", .num 1), ("name", .str "b")]]) "" =
      ⟨[], [],
       [⟨"[0].name", .str "a", .str "b"⟩],
       [⟨"[0].id", .num 1⟩]⟩ := rfl

/-! ## Claim C1: exact-key pairing in structural mode -/

/-- C1 counterexample: in structural mode with A=[{a:1},{b:2}] and B=[{b:2}],
B's only element has a canonical key identical to A[1]'s, yet it is consumed
by the similarity-scored pairing with the non-matching A[0] (producing a
removed/added pair inside it), and no `same` entry is ever produced: the
exact-key pairing does not globally precede similarity pairing. -/
theorem claim_C1_counterexample :
    stableKey (Value.obj [("b", Value.num 2)]) =
      stableKey (([Value.obj [("b", Value.num 2)]] : List Value).getD 0 .undef) ∧
    deepDiff (.arr [.obj [("a", .num 1)], .obj [("b", .num 2)]])
        (.arr [.obj [("b", .num 2)]]) "" =
      ⟨[⟨"[0].b", .num 2⟩],
       [⟨"[0].a", .num 1⟩, ⟨"[1]", .obj [("b", .num 2)]⟩],
       [], []⟩ :=
  ⟨rfl, rfl⟩

/-- C1 amended: exact-key matching has priority only per element of `a`, in
index order: when the loop processes an element and some still-unconsumed
element of `b` has an identical canonical key, the element is paired as
`same` with the first such match and no similarity scoring happens for it;
but a similarity pairing made for an earlier element of `a` may already have
consumed a `b` element that a later element of `a` matches exactly. -/
theorem claim_C1_amended :
    (∀ (b : List Value) (used : List Nat) (ka : String),
      (∃ j, j < b.length ∧ j ∉ used ∧ stableKey (b.getD j .undef) = ka) →
      ∃ j, findExactIdx b used ka = some j ∧ j < b.length ∧ j ∉ used ∧
        stableKey (b.getD j .undef) = ka ∧
        ∀ j', j' < j → j' ∉ used → stableKey (b.getD j' .undef) ≠ ka) ∧
    (∀ (recur : Value → Value → String → DiffResult) (b : List Value)
        (path : String) (va : Value) (rest : List Value) (i : Nat)
        (used : List Nat) (acc : DiffResult) (j : Nat),
      findExactIdx b used (stableKey va) = some j →
      structLoop recur b path (va :: rest) i used acc =
        structLoop recur b path rest (i + 1) (j :: used)
          { acc with same := acc.same ++ [⟨pathIdx path i, va⟩] }) := by
  constructor
  · intro b used ka hex
    match h : findExactIdx b used ka with
    | none =>
      obtain ⟨j, hj, hju, hjk⟩ := hex
      rcases findExactAux_none h j hj with hc | hc
      · exact absurd (by simpa using hc) hju
      · exact absurd hjk hc
    | some j =>
      obtain ⟨_, h2, h3, h4, h5⟩ := findExactAux_some h
      refine ⟨j, rfl, by simpa using h2, h3, by simpa using h4, ?_⟩
      intro j' hj' hj'u
      rcases h5 j' (by omega) with hc | hc
      · exact absurd (by simpa using hc) hj'u
      · simpa using hc
  · intro recur b path va rest i used acc j h
    simp only [structLoop, h]

/-- Witness for C1 amended at B=[{b:2}], no consumed indices, the key of
{b:2}: the scan finds index 0 and the loop step pairs it as `same`. -/
theorem claim_C1_amended_witness :
    (∃ j, findExactIdx [Value.obj [("b", Value.num 2)]] []
          (stableKey (Value.obj [("b", Value.num 2)])) = some j ∧
        j < [Value.obj [("b", Value.num 2)]].length ∧ j ∉ ([] : List Nat) ∧
        stableKey ([Value.obj [("b", Value.num 2)]].getD j .undef) =
          stableKey (Value.obj [("b", Value.num 2)]) ∧
        ∀ j', j' < j → j' ∉ ([] : List Nat) →
          stableKey ([Value.obj [("b", Value.num 2)]].getD j' .undef) ≠
            stableKey (Value.obj [("b", Value.num 2)])) ∧
    structLoop (deepDiffF 0) [Value.obj [("b", Value.num 2)]] ""
        [Value.obj [("b", Value.num 2)]] 0 [] emptyDiff =
      structLoop (deepDiffF 0) [Value.obj [("b", Value.num 2)]] "" [] 1 [0]
        { emptyDiff with
          same := emptyDiff.same ++ [⟨pathIdx "" 0, Value.obj [("b", Value.num 2)]⟩] } :=
  ⟨claim_C1_amended.1 _ _ _ ⟨0, by simp, by simp, rfl⟩,
   claim_C1_amended.2 _ _ _ _ _ _ _ _ 0 rfl⟩

/-! ## Claim C2: the relaxed tier's handling of undefined / Infinity -/

/-- C2 counterexample: `[{a: Infinity,}]` is accepted at tier 2, but the
`Infinity` token ends up as the *string* `"Infinity__"` — the sentinel is
never substituted back into `PosInfinity` (`revive` only handles the
`undefined` sentinel). -/
theorem claim_C2_counterexample :
    safeParseE evalStub "[{a: Infinity,}]" =
      .ok [.obj [("a", .str "Infinity__")]] ∧
    Value.str "Infinity__" ≠ Value.posInf :=
  ⟨rfl, fun h => Value.noConfusion h⟩

/-- C2 amended: only `undefined` is replaced by a reversible sentinel and
substituted back into `Undefined`; `Infinity` and `-Infinity` (in object
value position) are replaced by the sentinel strings `"Infinity__"` /
`"-Infinity__"` which survive as `String` values in the result; the
ObjectDiffChecker tier 2 instead collapses `undefined` and `±Infinity` to
`null`.  Independent of the evaluation tier. -/
theorem claim_C2_amended (ev ev2 : String → Except String Value) :
    safeParseE ev "[{a: Infinity, b: -Infinity, c: undefined,}]" =
      .ok [.obj [("a", .str "Infinity__"), ("b", .str "-Infinity__"),
        ("c", .undef)]] ∧
    (smartParseE ev2 "{a: Infinity, b: undefined}").map SParseResult.value =
      .ok (.obj [("a", .null), ("b", .null)]) :=
  ⟨rfl, rfl⟩

/-! ## Claim C7: do parse errors identify the failing side? -/

/-- C7 counterexample: in `analyzeArrays`, a parse failure of side A and a
parse failure of side B produce the *identical* error text, so the error does
not identify which side failed. -/
theorem claim_C7_counterexample :
    analyzeArraysE evalStub "[1]" "" = .error "Empty input." ∧
    analyzeArraysE evalStub "" "[1]" = .error "Empty input." :=
  ⟨rfl, rfl⟩

/-- C7 amended: only the shape errors of the ObjectDiffChecker `analyze`
entry point identify the failing side ("Object A/B is not a valid object or
array"); parse failures surface the parser's side-agnostic message. -/
theorem claim_C7_amended (ev : String → Except String Value) :
    analyzeObjE ev "1" "{}" = .error "Object A is not a valid object or array" ∧
    analyzeObjE ev "{}" "1" = .error "Object B is not a valid object or array" :=
  ⟨rfl, rfl⟩

/-! ## Claim C10: sentinel collision with user data -/

/-- C10: `["__UNDEFINED__",]` is not strict JSON (tier 1 rejects it), tier 2
accepts it, and the user's literal string `"__UNDEFINED__"` is silently
converted to `Undefined` by `revive` — the internal sentinel is not escaped.
Independent of the evaluation tier. -/
theorem claim_C10 (ev : String → Except String Value) :
    jsonParse (trimJs ("[\"__UNDEFINED__\",]").data) = none ∧
    safeParseE ev "[\"__UNDEFINED__\",]" = .ok [.undef] :=
  ⟨rfl, rfl⟩

/-! ## Bag-mode counting lemmas (claim C8) -/

theorem sameRun_length (path : String) (v : Value) :
    ∀ n start, (sameRun path v start n).length = n := by
  intro n
  induction n with
  | zero => intro start; rfl
  | succ m ih => intro start; simp [sameRun, ih]

theorem removedRun_length (path : String) (v : Value) :
    ∀ n start, (removedRun path v start n).length = n := by
  intro n
  induction n with
  | zero => intro start; rfl
  | succ m ih => intro start; simp [removedRun, ih]

theorem addedRun_length (path : String) (v : Value) :
    ∀ n start, (addedRun path v start n).length = n := by
  intro n
  induction n with
  | zero => intro start; rfl
  | succ m ih => intro start; simp [addedRun, ih]

theorem bumpCount_sumN (m : List CountEntry) (k : String) (v : Value) :
    sumN (bumpCount m k v) = sumN m + 1 := by
  induction m with
  | nil => rfl
  | cons e rest ih =>
    simp only [bumpCount]
    split
    · simp [sumN]; omega
    · simp only [sumN, List.map_cons, List.sum_cons] at ih ⊢
      omega

theorem countMap_sumN : ∀ (l : List Value) (acc : List CountEntry),
    sumN (countMap l acc) = sumN acc + l.length := by
  intro l
  induction l with
  | nil => intro acc; simp [countMap]
  | cons v rest ih =>
    intro acc
    simp only [countMap, List.length_cons]
    rw [ih, bumpCount_sumN]
    omega

theorem bumpCount_keys_mem {m : List CountEntry} {k : String} (v : Value)
    (h : k ∈ keysC m) : keysC (bumpCount m k v) = keysC m := by
  induction m with
  | nil => simp [keysC] at h
  | cons e rest ih =>
    simp only [bumpCount]
    split
    · simp [keysC]
    · simp only [keysC, List.map_cons] at h ⊢
      rcases List.mem_cons.mp h with h1 | h1
      · exact absurd h1.symm (by assumption)
      · have h2 := ih h1
        simp only [keysC] at h2
        rw [h2]

theorem bumpCount_keys_not_mem {m : List CountEntry} {k : String} (v : Value)
    (h : k ∉ keysC m) : keysC (bumpCount m k v) = keysC m ++ [k] := by
  induction m with
  | nil => rfl
  | cons e rest ih =>
    simp only [keysC, List.map_cons, List.mem_cons] at h
    push_neg at h
    simp only [bumpCount]
    split
    · exact absurd (by assumption) (Ne.symm h.1)
    · simp only [keysC, List.map_cons, List.cons_append]
      have h2 := ih h.2
      simp only [keysC] at h2
      rw [h2]

theorem bumpCount_nodup {m : List CountEntry} {k : String} (v : Value)
    (h : (keysC m).Nodup) : (keysC (bumpCount m k v)).Nodup := by
  by_cases hk : k ∈ keysC m
  · rw [bumpCount_keys_mem v hk]; exact h
  · rw [bumpCount_keys_not_mem v hk]
    simp only [List.nodup_append, List.nodup_cons, List.nodup_nil]
    refine ⟨h, by simp, ?_⟩
    simp only [List.disjoint_singleton]
    intro hmem
    exact hk hmem

theorem countMap_nodup : ∀ (l : List Value) (acc : List CountEntry),
    (keysC acc).Nodup → (keysC (countMap l acc)).Nodup := by
  intro l
  induction l with
  | nil => intro acc h; exact h
  | cons v rest ih =>
    intro acc h
    exact ih _ (bumpCount_nodup v h)

theorem lookupCount_eq_none_iff (l : List CountEntry) (k : String) :
    lookupCount l k = none ↔ k ∉ keysC l := by
  induction l with
  | nil => simp [lookupCount, keysC]
  | cons e rest ih =>
    simp only [lookupCount, keysC, List.map_cons, List.mem_cons]
    split
    · constructor
      · intro h; exact absurd h (by simp)
      · intro h; exact absurd (by assumption : e.k = k).symm (fun hh => h (Or.inl hh))
    · rw [ih]
      constructor
      · intro h hmem
        rcases hmem with h1 | h1
        · exact (by assumption : ¬e.k = k) h1.symm
        · exact h (by simpa [keysC] using h1)
      · intro h hmem
        exact h (Or.inr (by simpa [keysC] using hmem))

theorem bagLoopA_len (cB : List CountEntry) (path : String) :
    ∀ (entries : List CountEntry) (si ai ri : Nat) (acc : DiffResult),
      (bagLoopA cB path entries si ai ri acc).1.changed = acc.changed ∧
      (bagLoopA cB path entries si ai ri acc).1.same.length =
        acc.same.length + (entries.map (sameNOf cB)).sum ∧
      (bagLoopA cB path entries si ai ri acc).1.removed.length =
        acc.removed.length + (entries.map (fun e => e.n - sameNOf cB e)).sum ∧
      (bagLoopA cB path entries si ai ri acc).1.added.length =
        acc.added.length + (entries.map (addNOf cB)).sum := by
  intro entries
  induction entries with
  | nil => intro si ai ri acc; simp [bagLoopA]
  | cons ea rest ih =>
    intro si ai ri acc
    simp only [bagLoopA]
    match hl : lookupCount cB ea.k with
    | none =>
      obtain ⟨h1, h2, h3, h4⟩ := ih si ai (ri + ea.n)
        { acc with removed := acc.removed ++ removedRun path ea.v ri ea.n }
      refine ⟨h1, ?_, ?_, ?_⟩
      · rw [h2]; simp [sameNOf, hl]
      · rw [h3]
        simp only [List.length_append, removedRun_length, List.map_cons,
          List.sum_cons, sameNOf, hl]
        omega
      · rw [h4]; simp [addNOf, hl]
    | some eb =>
      obtain ⟨h1, h2, h3, h4⟩ := ih (si + min ea.n eb.n)
        (ai + (eb.n - min ea.n eb.n)) (ri + (ea.n - min ea.n eb.n))
        { acc with
          same := acc.same ++ sameRun path ea.v si (min ea.n eb.n)
          removed := acc.removed ++ removedRun path ea.v ri (ea.n - min ea.n eb.n)
          added := acc.added ++ addedRun path eb.v ai (eb.n - min ea.n eb.n) }
      refine ⟨h1, ?_, ?_, ?_⟩
      · rw [h2]
        simp only [List.length_append, sameRun_length, List.map_cons,
          List.sum_cons, sameNOf, hl]
        omega
      · rw [h3]
        simp only [List.length_append, removedRun_length, List.map_cons,
          List.sum_cons, sameNOf, hl]
        omega
      · rw [h4]
        simp only [List.length_append, addedRun_length, List.map_cons,
          List.sum_cons, addNOf, hl]
        omega

theorem bagLoopB_len (cA : List CountEntry) (path : String) :
    ∀ (entries : List CountEntry) (ai : Nat) (acc : DiffResult),
      (bagLoopB cA path entries ai acc).changed = acc.changed ∧
      (bagLoopB cA path entries ai acc).same = acc.same ∧
      (bagLoopB cA path entries ai acc).removed = acc.removed ∧
      (bagLoopB cA path entries ai acc).added.length =
        acc.added.length +
          ((entries.filter (fun e => (lookupCount cA e.k).isNone)).map
            CountEntry.n).sum := by
  intro entries
  induction entries with
  | nil => intro ai acc; simp [bagLoopB]
  | cons eb rest ih =>
    intro ai acc
    simp only [bagLoopB]
    match hl : lookupCount cA eb.k with
    | some e0 =>
      obtain ⟨h1, h2, h3, h4⟩ := ih ai acc
      exact ⟨h1, h2, h3, by rw [h4]; simp [hl]⟩
    | none =>
      obtain ⟨h1, h2, h3, h4⟩ := ih (ai + eb.n)
        { acc with added := acc.added ++ addedRun path eb.v ai eb.n }
      refine ⟨h1, h2, h3, ?_⟩
      rw [h4]
      have hf : (eb :: rest).filter (fun e => (lookupCount cA e.k).isNone) =
          eb :: rest.filter (fun e => (lookupCount cA e.k).isNone) :=
        List.filter_cons_of_pos (by simp [hl])
      rw [hf]
      simp only [List.length_append, addedRun_length, List.map_cons, List.sum_cons]
      omega

theorem sum_filter_split (l : List CountEntry) (p q : CountEntry → Bool) :
    ((l.filter p).map CountEntry.n).sum =
      ((l.filter (fun e => p e && q e)).map CountEntry.n).sum +
      ((l.filter (fun e => p e && !q e)).map CountEntry.n).sum := by
  induction l with
  | nil => rfl
  | cons e rest ih =>
    by_cases hp : p e = true
    · by_cases hq : q e = true
      · rw [List.filter_cons_of_pos hp,
          List.filter_cons_of_pos (by simp [hp, hq]),
          List.filter_cons_of_neg (by simp [hp, hq])]
        simp only [List.map_cons, List.sum_cons]
        omega
      · have hq' : q e = false := by simpa using hq
        rw [List.filter_cons_of_pos hp,
          List.filter_cons_of_neg (by simp [hp, hq']),
          List.filter_cons_of_pos (by simp [hp, hq'])]
        simp only [List.map_cons, List.sum_cons]
        omega
    · have hp' : p e = false := by simpa using hp
      rw [List.filter_cons_of_neg (by simp [hp']),
        List.filter_cons_of_neg (by simp [hp']),
        List.filter_cons_of_neg (by simp [hp'])]
      exact ih

theorem filter_key_eq_nil {l : List CountEntry} {k : String}
    (h : k ∉ keysC l) : l.filter (fun e => decide (e.k = k)) = [] := by
  induction l with
  | nil => rfl
  | cons e rest ih =>
    simp only [keysC, List.map_cons, List.mem_cons] at h
    push_neg at h
    rw [List.filter_cons_of_neg (by simp; exact fun hh => h.1 hh.symm)]
    exact ih (by simpa [keysC] using h.2)

theorem sum_filter_key {cB : List CountEntry} (hnd : (keysC cB).Nodup)
    (k : String) :
    ((cB.filter (fun e => decide (e.k = k))).map CountEntry.n).sum =
      lookupN cB k := by
  induction cB with
  | nil => rfl
  | cons e rest ih =>
    simp only [keysC, List.map_cons, List.nodup_cons] at hnd
    by_cases hk : e.k = k
    · subst hk
      simp only [List.filter_cons, decide_eq_true_eq, if_pos rfl,
        List.map_cons, List.sum_cons, lookupN, lookupCount, if_pos rfl]
      rw [filter_key_eq_nil (by simpa [keysC] using hnd.1)]
      simp
    · simp only [List.filter_cons, decide_eq_true_eq, if_neg hk, lookupN,
        lookupCount, if_neg hk]
      exact ih hnd.2

theorem cross_sum : ∀ (cA cB : List CountEntry),
    (keysC cA).Nodup → (keysC cB).Nodup →
    (cA.map (fun e => lookupN cB e.k)).sum +
      ((cB.filter (fun e => (lookupCount cA e.k).isNone)).map CountEntry.n).sum =
    sumN cB := by
  intro cA
  induction cA with
  | nil =>
    intro cB _ _
    simp only [List.map_nil, List.sum_nil, Nat.zero_add]
    rw [List.filter_eq_self.mpr (fun e _ => by simp [lookupCount])]
    rfl
  | cons e0 rest ih =>
    intro cB hndA hndB
    simp only [keysC, List.map_cons, List.nodup_cons] at hndA
    have hk0 : e0.k ∉ keysC rest := by simpa [keysC] using hndA.1
    -- rewrite the cons-lookup filter
    have hfe : ∀ e ∈ cB, ((lookupCount (e0 :: rest) e.k).isNone) =
        ((!decide (e.k = e0.k)) && (lookupCount rest e.k).isNone) := by
      intro e _
      simp only [lookupCount]
      by_cases h : e0.k = e.k
      · simp [h, if_pos rfl]
      · have h' : e.k ≠ e0.k := fun hh => h hh.symm
        rw [if_neg h]
        simp [h']
    rw [List.filter_congr hfe]
    -- split the rest-filter sum by whether the key is e0.k
    have hsplit := sum_filter_split cB
      (fun e => (lookupCount rest e.k).isNone) (fun e => decide (e.k = e0.k))
    have h1 : ((cB.filter (fun e =>
        (lookupCount rest e.k).isNone && decide (e.k = e0.k))).map
          CountEntry.n).sum = lookupN cB e0.k := by
      rw [List.filter_congr (fun e _ => ?_)]
      · exact sum_filter_key hndB e0.k
      · by_cases h : e.k = e0.k
        · have hnone : lookupCount rest e0.k = none :=
            (lookupCount_eq_none_iff rest e0.k).mpr hk0
          simp [h, hnone]
        · simp [h]
    have h2 : ((cB.filter (fun e =>
        (!decide (e.k = e0.k)) && (lookupCount rest e.k).isNone)).map
          CountEntry.n).sum =
        ((cB.filter (fun e =>
          (lookupCount rest e.k).isNone && !decide (e.k = e0.k))).map
            CountEntry.n).sum := by
      rw [List.filter_congr (fun e _ => Bool.and_comm _ _)]
    have hih := ih cB hndA.2 hndB
    simp only [List.map_cons, List.sum_cons]
    omega

theorem sameNOf_le (cB : List CountEntry) (e : CountEntry) :
    sameNOf cB e ≤ e.n := by
  unfold sameNOf
  cases lookupCount cB e.k with
  | none => exact Nat.zero_le _
  | some eb => exact Nat.min_le_left _ _

theorem sums_split (cB : List CountEntry) :
    ∀ entries : List CountEntry,
      (entries.map (sameNOf cB)).sum +
        (entries.map (fun e => e.n - sameNOf cB e)).sum = sumN entries := by
  intro entries
  induction entries with
  | nil => rfl
  | cons e rest ih =>
    have hle := sameNOf_le cB e
    simp only [List.map_cons, List.sum_cons, sumN] at ih ⊢
    omega

theorem sameN_add_addN (cB : List CountEntry) (e : CountEntry) :
    sameNOf cB e + addNOf cB e = lookupN cB e.k := by
  unfold sameNOf addNOf lookupN
  cases lookupCount cB e.k with
  | none => rfl
  | some eb =>
    show min e.n eb.n + (eb.n - min e.n eb.n) = eb.n
    have := Nat.min_le_right e.n eb.n
    omega

theorem sum_sameN_addN (cB : List CountEntry) :
    ∀ entries : List CountEntry,
      (entries.map (sameNOf cB)).sum + (entries.map (addNOf cB)).sum =
        (entries.map (fun e => lookupN cB e.k)).sum := by
  intro entries
  induction entries with
  | nil => rfl
  | cons e rest ih =>
    have h := sameN_add_addN cB e
    simp only [List.map_cons, List.sum_cons]
    omega

/-- C8: in bag mode (all-primitive arrays) the diff has no `changed` entries,
and the entry counts satisfy `|same| + |removed| = |a|` and
`|same| + |added| = |b|`: every source element is accounted for exactly once
on its side. -/
theorem claim_C8 (a b : List Value) (path : String)
    (ha : a.all isPrimitive = true) (hb : b.all isPrimitive = true) :
    (deepDiff (.arr a) (.arr b) path).changed = [] ∧
    (deepDiff (.arr a) (.arr b) path).same.length +
      (deepDiff (.arr a) (.arr b) path).removed.length = a.length ∧
    (deepDiff (.arr a) (.arr b) path).same.length +
      (deepDiff (.arr a) (.arr b) path).added.length = b.length := by
  have hdef : deepDiff (.arr a) (.arr b) path = diffArraysPrim a b path := by
    show deepDiffF (vdepthL a + 1) _ _ _ = _
    simp only [deepDiffF, diffArraysG]
    rw [if_pos (by rw [ha, hb]; rfl)]
  rw [hdef]
  rcases hp : bagLoopA (countMap b []) path (countMap a []) 0 0 0 emptyDiff
    with ⟨acc, ai⟩
  have hprim : diffArraysPrim a b path =
      bagLoopB (countMap a []) path (countMap b []) ai acc := by
    simp only [diffArraysPrim, hp]
  rw [hprim]
  have hA := bagLoopA_len (countMap b []) path (countMap a []) 0 0 0 emptyDiff
  rw [hp] at hA
  dsimp only at hA
  obtain ⟨hA1, hA2, hA3, hA4⟩ := hA
  obtain ⟨hB1, hB2, hB3, hB4⟩ :=
    bagLoopB_len (countMap a []) path (countMap b []) ai acc
  have hsumA : sumN (countMap a []) = a.length := by
    rw [countMap_sumN]; simp [sumN]
  have hsumB : sumN (countMap b []) = b.length := by
    rw [countMap_sumN]; simp [sumN]
  have hndA : (keysC (countMap a [])).Nodup := countMap_nodup a [] (by simp [keysC])
  have hndB : (keysC (countMap b [])).Nodup := countMap_nodup b [] (by simp [keysC])
  have hcross := cross_sum (countMap a []) (countMap b []) hndA hndB
  have hsplit := sums_split (countMap b []) (countMap a [])
  have hsa := sum_sameN_addN (countMap b []) (countMap a [])
  refine ⟨by rw [hB1, hA1]; rfl, ?_, ?_⟩
  · rw [hB2, hB3, hA2, hA3]
    simp only [emptyDiff] at *
    simp only [List.length_nil, Nat.zero_add]
    omega
  · rw [hB2, hB4, hA2, hA4]
    simp only [emptyDiff] at *
    simp only [List.length_nil, Nat.zero_add]
    omega

/-- Witness for C8 at the spec's bag-mode example. -/
theorem claim_C8_witness :
    ([Value.num 1, Value.num 2, Value.num 2, Value.num 3].all isPrimitive = true) ∧
    ([Value.num 2, Value.num 3, Value.num 3, Value.num 4].all isPrimitive = true) ∧
    ((deepDiff (.arr [.num 1, .num 2, .num 2, .num 3])
        (.arr [.num 2, .num 3, .num 3, .num 4]) "").changed = [] ∧
      (deepDiff (.arr [.num 1, .num 2, .num 2, .num 3])
          (.arr [.num 2, .num 3, .num 3, .num 4]) "").same.length +
        (deepDiff (.arr [.num 1, .num 2, .num 2, .num 3])
          (.arr [.num 2, .num 3, .num 3, .num 4]) "").removed.length = 4 ∧
      (deepDiff (.arr [.num 1, .num 2, .num 2, .num 3])
          (.arr [.num 2, .num 3, .num 3, .num 4]) "").same.length +
        (deepDiff (.arr [.num 1, .num 2, .num 2, .num 3])
          (.arr [.num 2, .num 3, .num 3, .num 4]) "").added.length = 4) :=
  ⟨rfl, rfl, claim_C8 _ _ "" rfl rfl⟩

/-! ## Idempotent diff (claim C4): helper lemmas -/

theorem vdepth_pos (v : Value) : 1 ≤ vdepth v := by
  cases v <;> simp [vdepth]

theorem memKey_iff (fs : List (String × Value)) (k : String) :
    memKey fs k = true ↔ k ∈ keysOf fs := by
  induction fs with
  | nil => simp [memKey, keysOf]
  | cons p rest ih =>
    simp only [memKey, keysOf, List.map_cons, List.mem_cons, Bool.or_eq_true,
      decide_eq_true_eq]
    rw [ih]
    constructor
    · rintro (h | h)
      · exact Or.inl h.symm
      · exact Or.inr h
    · rintro (h | h)
      · exact Or.inl h.symm
      · exact Or.inr h

theorem dedupStr_subset : ∀ (l seen : List String) (k : String),
    k ∈ dedupStr l seen → k ∈ l := by
  intro l
  induction l with
  | nil => intro seen k h; simp [dedupStr] at h
  | cons k0 rest ih =>
    intro seen k h
    simp only [dedupStr] at h
    by_cases hs : seen.contains k0 = true
    · rw [if_pos hs] at h
      exact List.mem_cons_of_mem _ (ih _ _ h)
    · rw [if_neg hs] at h
      rcases List.mem_cons.mp h with h1 | h1
      · exact h1 ▸ List.mem_cons_self _ _
      · exact List.mem_cons_of_mem _ (ih _ _ h1)

theorem lookupD_mem {fs : List (String × Value)} {k : String}
    (h : k ∈ keysOf fs) : (k, lookupD fs k) ∈ fs := by
  induction fs with
  | nil => simp [keysOf] at h
  | cons p rest ih =>
    simp only [keysOf, List.map_cons, List.mem_cons] at h
    simp only [lookupD]
    by_cases h1 : p.1 = k
    · rw [if_pos h1]
      rw [← h1]
      exact List.mem_cons_self _ _
    · rw [if_neg h1]
      rcases h with h2 | h2
      · exact absurd h2.symm h1
      · exact List.mem_cons_of_mem _ (ih h2)

theorem vdepthF_bound {fs : List (String × Value)} {k : String} {v : Value}
    (h : (k, v) ∈ fs) : vdepth v ≤ vdepthF fs := by
  induction fs with
  | nil => simp at h
  | cons p rest ih =>
    rcases List.mem_cons.mp h with h1 | h1
    · cases p
      injection h1 with h2 h3
      subst h3
      simp [vdepthF, Nat.le_max_left]
    · calc vdepth v ≤ vdepthF rest := ih h1
        _ ≤ vdepthF (p :: rest) := by
          cases p; simp [vdepthF, Nat.le_max_right]

theorem vdepthL_bound {xs : List Value} {v : Value} (h : v ∈ xs) :
    vdepth v ≤ vdepthL xs := by
  induction xs with
  | nil => simp at h
  | cons x rest ih =>
    rcases List.mem_cons.mp h with h1 | h1
    · subst h1; simp [vdepthL, Nat.le_max_left]
    · calc vdepth v ≤ vdepthL rest := ih h1
        _ ≤ vdepthL (x :: rest) := by simp [vdepthL, Nat.le_max_right]

theorem lookupCount_of_nodup_mem : ∀ {l : List CountEntry},
    (keysC l).Nodup → ∀ {e : CountEntry}, e ∈ l → lookupCount l e.k = some e := by
  intro l
  induction l with
  | nil => intro _ e h; simp at h
  | cons e0 rest ih =>
    intro hnd e h
    simp only [keysC, List.map_cons, List.nodup_cons] at hnd
    rcases List.mem_cons.mp h with h1 | h1
    · subst h1
      simp [lookupCount]
    · simp only [lookupCount]
      by_cases h2 : e0.k = e.k
      · exfalso
        apply hnd.1
        rw [h2]
        exact List.mem_map_of_mem CountEntry.k h1
      · rw [if_neg h2]
        exact ih hnd.2 h1

theorem bagLoopA_self (cB : List CountEntry) (path : String) :
    ∀ (entries : List CountEntry) (si ai ri : Nat) (acc : DiffResult),
      (∀ e ∈ entries, lookupCount cB e.k = some e) →
      (bagLoopA cB path entries si ai ri acc).1.added = acc.added ∧
      (bagLoopA cB path entries si ai ri acc).1.removed = acc.removed ∧
      (bagLoopA cB path entries si ai ri acc).1.changed = acc.changed ∧
      (bagLoopA cB path entries si ai ri acc).1.same.length =
        acc.same.length + sumN entries := by
  intro entries
  induction entries with
  | nil => intro si ai ri acc _; simp [bagLoopA, sumN]
  | cons ea rest ih =>
    intro si ai ri acc hl
    have hl0 : lookupCount cB ea.k = some ea := hl ea (List.mem_cons_self _ _)
    simp only [bagLoopA, hl0, Nat.min_self, Nat.sub_self]
    obtain ⟨h1, h2, h3, h4⟩ := ih (si + ea.n) (ai + 0) (ri + 0)
      { acc with
        same := acc.same ++ sameRun path ea.v si ea.n
        removed := acc.removed ++ removedRun path ea.v ri 0
        added := acc.added ++ addedRun path ea.v ai 0 }
      (fun e he => hl e (List.mem_cons_of_mem _ he))
    refine ⟨by rw [h1]; simp [addedRun], by rw [h2]; simp [removedRun], h3, ?_⟩
    rw [h4]
    simp only [List.length_append, sameRun_length, sumN, List.map_cons,
      List.sum_cons]
    omega

theorem bagLoopB_self (cA : List CountEntry) (path : String) :
    ∀ (entries : List CountEntry) (ai : Nat) (acc : DiffResult),
      (∀ e ∈ entries, (lookupCount cA e.k).isSome = true) →
      bagLoopB cA path entries ai acc = acc := by
  intro entries
  induction entries with
  | nil => intro ai acc _; rfl
  | cons eb rest ih =>
    intro ai acc hl
    have hl0 := hl eb (List.mem_cons_self _ _)
    simp only [bagLoopB]
    match hsome : lookupCount cA eb.k with
    | some e0 => exact ih ai acc (fun e he => hl e (List.mem_cons_of_mem _ he))
    | none => rw [hsome] at hl0; simp at hl0

theorem countMap_mem_lookup (l : List Value) :
    ∀ e ∈ countMap l [], lookupCount (countMap l []) e.k = some e :=
  fun e he => lookupCount_of_nodup_mem (countMap_nodup l [] (by simp [keysC])) he

/-- Bag mode on a list against itself: only `same` entries, one per element. -/
theorem diffArraysPrim_self (xs : List Value) (path : String) :
    (diffArraysPrim xs xs path).added = [] ∧
    (diffArraysPrim xs xs path).removed = [] ∧
    (diffArraysPrim xs xs path).changed = [] ∧
    (diffArraysPrim xs xs path).same.length = xs.length := by
  rcases hp : bagLoopA (countMap xs []) path (countMap xs []) 0 0 0 emptyDiff
    with ⟨acc, ai⟩
  have hA := bagLoopA_self (countMap xs []) path (countMap xs []) 0 0 0 emptyDiff
    (countMap_mem_lookup xs)
  rw [hp] at hA
  dsimp only at hA
  obtain ⟨hA1, hA2, hA3, hA4⟩ := hA
  have hB := bagLoopB_self (countMap xs []) path (countMap xs []) ai acc
    (fun e he => by rw [countMap_mem_lookup xs e he]; rfl)
  have hprim : diffArraysPrim xs xs path =
      bagLoopB (countMap xs []) path (countMap xs []) ai acc := by
    simp only [diffArraysPrim, hp]
  rw [hprim, hB]
  refine ⟨by rw [hA1]; rfl, by rw [hA2]; rfl, by rw [hA3]; rfl, ?_⟩
  rw [hA4, countMap_sumN]
  simp [emptyDiff, sumN]

/-- The object loop on identical sides merges only the recursive results;
with empty-difference recursions it accumulates only `same` entries. -/
theorem objLoop_self (recur : Value → Value → String → DiffResult)
    (fs : List (String × Value)) (path : String) :
    ∀ (keys : List String) (acc : DiffResult),
      (∀ k ∈ keys, memKey fs k = true) →
      (∀ k ∈ keys,
        (recur (lookupD fs k) (lookupD fs k) (pathKey path k)).added = [] ∧
        (recur (lookupD fs k) (lookupD fs k) (pathKey path k)).removed = [] ∧
        (recur (lookupD fs k) (lookupD fs k) (pathKey path k)).changed = []) →
      (objLoop recur fs fs path keys acc).added = acc.added ∧
      (objLoop recur fs fs path keys acc).removed = acc.removed ∧
      (objLoop recur fs fs path keys acc).changed = acc.changed ∧
      (objLoop recur fs fs path keys acc).same.length =
        acc.same.length +
          (keys.map (fun k =>
            (recur (lookupD fs k) (lookupD fs k) (pathKey path k)).same.length)).sum := by
  intro keys
  induction keys with
  | nil => intro acc _ _; simp [objLoop]
  | cons k rest ih =>
    intro acc hmem hrec
    have hk : memKey fs k = true := hmem k (List.mem_cons_self _ _)
    obtain ⟨hr1, hr2, hr3⟩ := hrec k (List.mem_cons_self _ _)
    simp only [objLoop, hk, Bool.not_true, Bool.false_eq_true, if_false]
    obtain ⟨h1, h2, h3, h4⟩ := ih
      (mergeInto acc (recur (lookupD fs k) (lookupD fs k) (pathKey path k)))
      (fun k' hk' => hmem k' (List.mem_cons_of_mem _ hk'))
      (fun k' hk' => hrec k' (List.mem_cons_of_mem _ hk'))
    refine ⟨?_, ?_, ?_, ?_⟩
    · rw [h1]; simp [mergeInto, hr1]
    · rw [h2]; simp [mergeInto, hr2]
    · rw [h3]; simp [mergeInto, hr3]
    · rw [h4]
      simp only [mergeInto, List.length_append, List.map_cons, List.sum_cons]
      omega

/-! Structural mode on identical arrays: the exact-match pass consumes
everything.  The invariant carried through the loop is that the consumed
index multiset realises, key for key, the already-processed prefix. -/

theorem mem_matchIdxs {b : List Value} {κ : String} {j : Nat} :
    j ∈ matchIdxs b κ ↔ j < b.length ∧ stableKey (b.getD j .undef) = κ := by
  simp [matchIdxs, List.mem_filter, List.mem_range]

theorem matchIdxs_length (b : List Value) (κ : String) :
    (matchIdxs b κ).length = b.countP (fun v => decide (stableKey v = κ)) := by
  induction b with
  | nil => rfl
  | cons v rest ih =>
    have hrange : List.range (rest.length + 1) = 0 :: (List.range rest.length).map (· + 1) :=
      List.range_succ_eq_map rest.length
    simp only [matchIdxs, List.length_cons, hrange]
    rw [List.filter_cons]
    simp only [List.getD_cons_zero]
    rw [List.filter_map]
    have hcomp : ((fun j => decide (stableKey ((v :: rest).getD j .undef) = κ)) ∘ (· + 1)) =
        (fun j => decide (stableKey (rest.getD j .undef) = κ)) := by
      funext j
      simp [List.getD_cons_succ]
    rw [hcomp]
    simp only [matchIdxs] at ih
    rw [List.countP_cons]
    by_cases hd : decide (stableKey v = κ) = true
    · rw [if_pos hd, if_pos hd]
      simp only [List.length_cons, List.length_map]
      rw [ih]
    · rw [if_neg hd, if_neg hd]
      simp only [List.length_map]
      rw [ih]
      omega

theorem matchIdxs_nodup (b : List Value) (κ : String) :
    (matchIdxs b κ).Nodup :=
  (List.nodup_range _).filter _

/-- If every key-matching index of `b` were already consumed, the consumed
multiset would exceed the processed prefix: an unconsumed exact match always
exists when diffing a list against itself. -/
theorem exists_unconsumed {xs : List Value} {used : List Nat}
    {done rem : List Value} {va : Value}
    (hsplit : xs = done ++ va :: rem)
    (_hbound : ∀ j ∈ used, j < xs.length)
    (hcount : ∀ κ, used.countP (fun j => decide (stableKey (xs.getD j .undef) = κ)) =
        done.countP (fun v => decide (stableKey v = κ))) :
    ∃ j, j < xs.length ∧ j ∉ used ∧
      stableKey (xs.getD j .undef) = stableKey va := by
  by_contra hno
  push_neg at hno
  have hsub : matchIdxs xs (stableKey va) ⊆
      used.filter (fun j => decide (stableKey (xs.getD j .undef) = stableKey va)) := by
    intro j hj
    obtain ⟨hjl, hjk⟩ := mem_matchIdxs.mp hj
    by_cases hju : j ∈ used
    · exact List.mem_filter.mpr ⟨hju, by simpa using hjk⟩
    · exact absurd hjk (hno j hjl hju)
  have hlen1 : (matchIdxs xs (stableKey va)).length ≤
      (used.filter (fun j => decide (stableKey (xs.getD j .undef) = stableKey va))).length :=
    (List.subperm_of_subset (matchIdxs_nodup xs (stableKey va)) hsub).length_le
  rw [matchIdxs_length, ← List.countP_eq_length_filter] at hlen1
  rw [hcount (stableKey va)] at hlen1
  have hx : xs.countP (fun v => decide (stableKey v = stableKey va)) =
      done.countP (fun v => decide (stableKey v = stableKey va)) +
        (va :: rem).countP (fun v => decide (stableKey v = stableKey va)) := by
    rw [hsplit, List.countP_append]
  have hpos : 0 < (va :: rem).countP (fun v => decide (stableKey v = stableKey va)) := by
    rw [List.countP_cons_of_pos _ _ (by simp)]
    omega
  omega

/-- The structural loop on a list against itself: every element finds an
exact match, only `same` entries accumulate (one per element), and the
consumed indices realise the whole list's key multiset. -/
theorem structLoop_self (recur : Value → Value → String → DiffResult)
    (xs : List Value) (path : String) :
    ∀ (rem done : List Value) (used : List Nat) (acc : DiffResult),
      xs = done ++ rem →
      used.Nodup →
      (∀ j ∈ used, j < xs.length) →
      (∀ κ, used.countP (fun j => decide (stableKey (xs.getD j .undef) = κ)) =
          done.countP (fun v => decide (stableKey v = κ))) →
      ∃ res used2,
        structLoop recur xs path rem done.length used acc = (res, used2) ∧
        res.added = acc.added ∧ res.removed = acc.removed ∧
        res.changed = acc.changed ∧
        res.same.length = acc.same.length + rem.length ∧
        used2.Nodup ∧ (∀ j ∈ used2, j < xs.length) ∧
        (∀ κ, used2.countP (fun j => decide (stableKey (xs.getD j .undef) = κ)) =
            xs.countP (fun v => decide (stableKey v = κ))) := by
  intro rem
  induction rem with
  | nil =>
    intro done used acc hsplit hnd hbound hcount
    refine ⟨acc, used, rfl, rfl, rfl, rfl, by simp, hnd, hbound, ?_⟩
    intro κ
    rw [hcount κ, hsplit]
    simp
  | cons va rest ih =>
    intro done used acc hsplit hnd hbound hcount
    obtain ⟨j0, hj0l, hj0u, hj0k⟩ := exists_unconsumed hsplit hbound hcount
    match hfind : findExactIdx xs used (stableKey va) with
    | none =>
      exfalso
      rcases findExactAux_none hfind j0 hj0l with hc | hc
      · exact hj0u (by simpa using hc)
      · exact hc hj0k
    | some j =>
      obtain ⟨_, hjl, hju, hjk, _⟩ := findExactAux_some hfind
      simp only [Nat.sub_zero] at hjl hjk
      have hstep : structLoop recur xs path (va :: rest) done.length used acc =
          structLoop recur xs path rest (done.length + 1) (j :: used)
            { acc with same := acc.same ++ [⟨pathIdx path done.length, va⟩] } := by
        simp only [structLoop, hfind]
      obtain ⟨res, used2, heq, h1, h2, h3, h4, hnd2, hb2, hc2⟩ :=
        ih (done ++ [va]) (j :: used)
          { acc with same := acc.same ++ [⟨pathIdx path done.length, va⟩] }
          (by rw [hsplit]; simp)
          (List.nodup_cons.mpr ⟨hju, hnd⟩)
          (by
            intro i hi
            rcases List.mem_cons.mp hi with h | h
            · exact h ▸ hjl
            · exact hbound i h)
          (by
            intro κ
            rw [List.countP_cons, List.countP_append, hcount κ]
            have : (decide (stableKey (xs.getD j .undef) = κ)) =
                (decide (stableKey va = κ)) := by rw [hjk]
            rw [this]
            simp [List.countP_cons])
      rw [List.length_append, List.length_cons, List.length_nil] at heq
      refine ⟨res, used2, ?_, h1, h2, h3, ?_, hnd2, hb2, hc2⟩
      · rw [hstep]
        exact heq
      · rw [h4]
        dsimp only
        simp only [List.length_append, List.length_cons, List.length_nil]
        omega

theorem used_covers {xs : List Value} {used : List Nat}
    (hnd : used.Nodup) (hbound : ∀ j ∈ used, j < xs.length)
    (hcount : ∀ κ, used.countP (fun j => decide (stableKey (xs.getD j .undef) = κ)) =
        xs.countP (fun v => decide (stableKey v = κ))) :
    ∀ j, j < xs.length → j ∈ used := by
  intro j hj
  have hsub : used.filter
      (fun i => decide (stableKey (xs.getD i .undef) = stableKey (xs.getD j .undef))) ⊆
      matchIdxs xs (stableKey (xs.getD j .undef)) := by
    intro i hi
    obtain ⟨hiu, hik⟩ := List.mem_filter.mp hi
    exact mem_matchIdxs.mpr ⟨hbound i hiu, by simpa using hik⟩
  have hsp := List.subperm_of_subset (hnd.filter _) hsub
  have hlen : (matchIdxs xs (stableKey (xs.getD j .undef))).length ≤
      (used.filter (fun i =>
        decide (stableKey (xs.getD i .undef) = stableKey (xs.getD j .undef)))).length := by
    rw [matchIdxs_length, ← List.countP_eq_length_filter]
    rw [hcount (stableKey (xs.getD j .undef))]
  have hperm := hsp.perm_of_length_le hlen
  have hjm : j ∈ matchIdxs xs (stableKey (xs.getD j .undef)) :=
    mem_matchIdxs.mpr ⟨hj, rfl⟩
  have := hperm.symm.mem_iff.mp hjm
  exact (List.mem_filter.mp this).1

theorem leftover_cover (used : List Nat) (path : String) :
    ∀ (l : List Value) (off : Nat),
      (∀ t, t < l.length → (off + t) ∈ used) →
      leftoverAdded used path l off = [] := by
  intro l
  induction l with
  | nil => intro off _; rfl
  | cons vb rest ih =>
    intro off h
    have h0 : off ∈ used := by simpa using h 0 (by simp)
    simp only [leftoverAdded, contains_eq_decide_mem, h0, decide_true_eq_true]
    rw [if_pos trivial]
    exact ih (off + 1) (fun t ht => by
      have := h (t + 1) (by simpa using Nat.succ_lt_succ ht)
      simpa [Nat.add_assoc, Nat.add_comm 1 t] using this)

/-- `diffArrays` on identical arrays: no added/removed/changed, one `same`
entry per element (in both modes). -/
theorem diffArraysG_self (recur : Value → Value → String → DiffResult)
    (xs : List Value) (path : String) :
    (diffArraysG recur xs xs path).added = [] ∧
    (diffArraysG recur xs xs path).removed = [] ∧
    (diffArraysG recur xs xs path).changed = [] ∧
    (diffArraysG recur xs xs path).same.length = xs.length := by
  by_cases hprim : (xs.all isPrimitive && xs.all isPrimitive) = true
  · simp only [diffArraysG, if_pos hprim]
    exact diffArraysPrim_self xs path
  · simp only [diffArraysG, if_neg hprim]
    obtain ⟨res, used2, heq, h1, h2, h3, h4, hnd2, hb2, hc2⟩ :=
      structLoop_self recur xs path xs [] [] emptyDiff rfl (by simp)
        (by simp) (by simp)
    rw [show ([] : List Value).length = 0 from rfl] at heq
    rw [heq]
    have hcover := used_covers hnd2 hb2 hc2
    have hleft : leftoverAdded used2 path xs 0 = [] :=
      leftover_cover used2 path xs 0 (fun t ht => by simpa using hcover t ht)
    refine ⟨?_, by rw [h2]; rfl, by rw [h3]; rfl, by rw [h4]; simp [emptyDiff]⟩
    rw [hleft]
    simp only [List.append_nil]
    rw [h1]
    rfl

/-- Scalar (non-composite) values diffed against themselves give one `same`
entry. -/
theorem deepDiffF_scalar_self (fuel : Nat) (v : Value) (path : String)
    (h : isPrimitive v = true) :
    deepDiffF (fuel + 1) v v path =
      ⟨[], [], [], [⟨(if path = "" then "(root)" else path), v⟩]⟩ := by
  cases v with
  | arr xs => simp [isPrimitive] at h
  | obj fs => simp [isPrimitive] at h
  | null => simp only [deepDiffF]; rw [if_neg (fun hne => hne rfl)]
  | undef => simp only [deepDiffF]; rw [if_neg (fun hne => hne rfl)]
  | bool b => simp only [deepDiffF]; rw [if_neg (fun hne => hne rfl)]
  | num n => simp only [deepDiffF]; rw [if_neg (fun hne => hne rfl)]
  | nan => simp only [deepDiffF]; rw [if_neg (fun hne => hne rfl)]
  | posInf => simp only [deepDiffF]; rw [if_neg (fun hne => hne rfl)]
  | negInf => simp only [deepDiffF]; rw [if_neg (fun hne => hne rfl)]
  | str s => simp only [deepDiffF]; rw [if_neg (fun hne => hne rfl)]

theorem containsS_eq_decide_mem (l : List String) (k : String) :
    l.contains k = decide (k ∈ l) := by
  simp [List.contains, List.elem_eq_mem]

theorem dedupStr_all_seen : ∀ (l seen : List String),
    (∀ k ∈ l, seen.contains k = true) → dedupStr l seen = [] := by
  intro l
  induction l with
  | nil => intro seen _; rfl
  | cons k0 rest ih =>
    intro seen h
    simp only [dedupStr]
    rw [if_pos (h k0 (List.mem_cons_self _ _))]
    exact ih seen (fun k hk => h k (List.mem_cons_of_mem _ hk))

theorem dedupStr_append : ∀ (l l' seen : List String),
    ∃ seen2, dedupStr (l ++ l') seen = dedupStr l seen ++ dedupStr l' seen2 ∧
      ∀ k, seen2.contains k = true ↔ (seen.contains k = true ∨ k ∈ l) := by
  intro l
  induction l with
  | nil =>
    intro l' seen
    exact ⟨seen, by simp [dedupStr], fun k => by simp⟩
  | cons k0 rest ih =>
    intro l' seen
    simp only [List.cons_append, dedupStr]
    by_cases hs : seen.contains k0 = true
    · rw [if_pos hs, if_pos hs]
      obtain ⟨seen2, heq, hiff⟩ := ih l' seen
      refine ⟨seen2, heq, fun k => ?_⟩
      rw [hiff k]
      constructor
      · rintro (h | h)
        · exact Or.inl h
        · exact Or.inr (List.mem_cons_of_mem _ h)
      · rintro (h | h)
        · exact Or.inl h
        · rcases List.mem_cons.mp h with h1 | h1
          · exact Or.inl (h1 ▸ hs)
          · exact Or.inr h1
    · rw [if_neg hs, if_neg hs]
      obtain ⟨seen2, heq, hiff⟩ := ih l' (k0 :: seen)
      refine ⟨seen2, ?_, fun k => ?_⟩
      · show k0 :: dedupStr (rest ++ l') (k0 :: seen) =
          k0 :: dedupStr rest (k0 :: seen) ++ dedupStr l' seen2
        rw [heq]
        rfl
      rw [hiff k]
      simp only [containsS_eq_decide_mem, List.mem_cons, decide_eq_true_eq] at *
      constructor
      · rintro ((h | h) | h)
        · exact Or.inr (Or.inl h)
        · exact Or.inl h
        · exact Or.inr (Or.inr h)
      · rintro (h | (h | h))
        · exact Or.inl (Or.inr h)
        · exact Or.inl (Or.inl h)
        · exact Or.inr h

theorem dedupStr_of_nodupB : ∀ (l seen : List String), nodupKeys l = true →
    (∀ k ∈ l, seen.contains k = false) → dedupStr l seen = l := by
  intro l
  induction l with
  | nil => intro seen _ _; rfl
  | cons k0 rest ih =>
    intro seen hnd hfree
    simp only [nodupKeys, Bool.and_eq_true, Bool.not_eq_true'] at hnd
    simp only [dedupStr]
    rw [if_neg (by rw [hfree k0 (List.mem_cons_self _ _)]; simp)]
    congr 1
    refine ih (k0 :: seen) hnd.2 (fun k hk => ?_)
    have h1 : k ≠ k0 := by
      intro hh
      subst hh
      have h2 := hnd.1
      rw [containsS_eq_decide_mem] at h2
      simp only [decide_eq_false_iff_not] at h2
      exact h2 hk
    have h2 := hfree k (List.mem_cons_of_mem _ hk)
    rw [containsS_eq_decide_mem] at h2 ⊢
    simp only [decide_eq_false_iff_not, List.mem_cons] at h2 ⊢
    rintro (h | h)
    · exact h1 h
    · exact h2 h

/-- The key union `new Set([...keys, ...keys])` of an object with itself is
exactly its (duplicate-free) key list. -/
theorem dedupStr_double {l : List String} (hnd : nodupKeys l = true) :
    dedupStr (l ++ l) [] = l := by
  obtain ⟨seen2, heq, hiff⟩ := dedupStr_append l l []
  rw [heq]
  have h1 : dedupStr l [] = l :=
    dedupStr_of_nodupB l [] hnd (fun k _ => rfl)
  have h2 : dedupStr l seen2 = [] :=
    dedupStr_all_seen l seen2 (fun k hk => (hiff k).mpr (Or.inr hk))
  rw [h1, h2, List.append_nil]

/-- `deepDiff(v, v)` produces no added, removed or changed entries (any
fuel of at least the nesting depth). -/
theorem deepDiffF_self_empty : ∀ (fuel : Nat) (v : Value) (path : String),
    vdepth v ≤ fuel →
    (deepDiffF fuel v v path).added = [] ∧
    (deepDiffF fuel v v path).removed = [] ∧
    (deepDiffF fuel v v path).changed = [] := by
  intro fuel
  induction fuel with
  | zero =>
    intro v path h
    exact absurd h (by have := vdepth_pos v; omega)
  | succ fuel ih =>
    intro v path h
    match v with
    | .arr xs =>
      have hG := diffArraysG_self (deepDiffF fuel) xs path
      exact ⟨hG.1, hG.2.1, hG.2.2.1⟩
    | .obj fs =>
      have hkeys : ∀ k ∈ dedupStr (keysOf fs ++ keysOf fs) [], memKey fs k = true := by
        intro k hk
        have := dedupStr_subset _ _ _ hk
        rcases List.mem_append.mp this with h1 | h1 <;>
          exact (memKey_iff fs k).mpr h1
      have hdep : vdepthF fs ≤ fuel := by
        have : vdepth (Value.obj fs) = vdepthF fs + 1 := rfl
        omega
      have hrec : ∀ k ∈ dedupStr (keysOf fs ++ keysOf fs) [],
          (deepDiffF fuel (lookupD fs k) (lookupD fs k) (pathKey path k)).added = [] ∧
          (deepDiffF fuel (lookupD fs k) (lookupD fs k) (pathKey path k)).removed = [] ∧
          (deepDiffF fuel (lookupD fs k) (lookupD fs k) (pathKey path k)).changed = [] := by
        intro k hk
        have hmem : k ∈ keysOf fs := by
          have := dedupStr_subset _ _ _ hk
          rcases List.mem_append.mp this with h1 | h1 <;> exact h1
        have hdepk : vdepth (lookupD fs k) ≤ fuel :=
          le_trans (vdepthF_bound (lookupD_mem hmem)) hdep
        exact ih (lookupD fs k) (pathKey path k) hdepk
      have hO := objLoop_self (deepDiffF fuel) fs path
        (dedupStr (keysOf fs ++ keysOf fs) []) emptyDiff hkeys hrec
      exact ⟨hO.1, hO.2.1, hO.2.2.1⟩
    | .null => rw [deepDiffF_scalar_self fuel Value.null path rfl]; exact ⟨rfl, rfl, rfl⟩
    | .undef => rw [deepDiffF_scalar_self fuel Value.undef path rfl]; exact ⟨rfl, rfl, rfl⟩
    | .bool b => rw [deepDiffF_scalar_self fuel (Value.bool b) path rfl]; exact ⟨rfl, rfl, rfl⟩
    | .num n => rw [deepDiffF_scalar_self fuel (Value.num n) path rfl]; exact ⟨rfl, rfl, rfl⟩
    | .nan => rw [deepDiffF_scalar_self fuel Value.nan path rfl]; exact ⟨rfl, rfl, rfl⟩
    | .posInf => rw [deepDiffF_scalar_self fuel Value.posInf path rfl]; exact ⟨rfl, rfl, rfl⟩
    | .negInf => rw [deepDiffF_scalar_self fuel Value.negInf path rfl]; exact ⟨rfl, rfl, rfl⟩
    | .str s => rw [deepDiffF_scalar_self fuel (Value.str s) path rfl]; exact ⟨rfl, rfl, rfl⟩

theorem leafCount_prim {v : Value} (h : isPrimitive v = true) :
    leafCount v = 1 := by
  cases v <;> first
    | rfl
    | simp [isPrimitive] at h

theorem leafCountL_of_prim : ∀ {xs : List Value},
    xs.all isPrimitive = true → leafCountL xs = xs.length := by
  intro xs
  induction xs with
  | nil => intro _; rfl
  | cons v rest ih =>
    intro h
    simp only [List.all_cons, Bool.and_eq_true] at h
    simp only [leafCountL, List.length_cons, leafCount_prim h.1, ih h.2]
    omega

theorem scalarOnlyF_mem : ∀ {fs : List (String × Value)},
    scalarOnlyF fs = true → ∀ {k : String} {v : Value}, (k, v) ∈ fs →
      scalarOnly v = true := by
  intro fs
  induction fs with
  | nil => intro _ k v h; simp at h
  | cons p rest ih =>
    intro h k v hm
    obtain ⟨k0, v0⟩ := p
    simp only [scalarOnlyF, Bool.and_eq_true] at h
    rcases List.mem_cons.mp hm with h1 | h1
    · injection h1 with h2 h3
      rw [h3]
      exact h.1
    · exact ih h.2 h1

theorem wfKeysF_mem : ∀ {fs : List (String × Value)},
    wfKeysF fs = true → ∀ {k : String} {v : Value}, (k, v) ∈ fs →
      wfKeys v = true := by
  intro fs
  induction fs with
  | nil => intro _ k v h; simp at h
  | cons p rest ih =>
    intro h k v hm
    obtain ⟨k0, v0⟩ := p
    simp only [wfKeysF, Bool.and_eq_true] at h
    rcases List.mem_cons.mp hm with h1 | h1
    · injection h1 with h2 h3
      rw [h3]
      exact h.1
    · exact ih h.2 h1

theorem sum_lookup_leaf : ∀ (fs : List (String × Value)),
    nodupKeys (keysOf fs) = true →
    ((keysOf fs).map (fun k => leafCount (lookupD fs k))).sum = leafCountF fs := by
  intro fs
  induction fs with
  | nil => intro _; rfl
  | cons p rest ih =>
    intro hnd
    obtain ⟨k0, v0⟩ := p
    simp only [keysOf, List.map_cons, nodupKeys, Bool.and_eq_true,
      Bool.not_eq_true'] at hnd
    simp only [keysOf, List.map_cons, List.sum_cons]
    have h0 : lookupD ((k0, v0) :: rest) k0 = v0 := by
      simp [lookupD]
    have hcongr : (List.map Prod.fst rest).map
        (fun k => leafCount (lookupD ((k0, v0) :: rest) k)) =
        (List.map Prod.fst rest).map (fun k => leafCount (lookupD rest k)) := by
      refine List.map_congr_left (fun k hk => ?_)
      have hne : k0 ≠ k := by
        intro hh
        subst hh
        have h2 := hnd.1
        rw [containsS_eq_decide_mem] at h2
        simp only [decide_eq_false_iff_not] at h2
        exact h2 hk
      simp [lookupD, hne]
    rw [h0, hcongr]
    have := ih hnd.2
    simp only [keysOf] at this
    rw [this]
    rfl

/-- `deepDiff(v, v)` has one `same` entry per leaf for values whose arrays
contain only scalars and whose objects have duplicate-free keys. -/
theorem deepDiffF_self_len : ∀ (fuel : Nat) (v : Value) (path : String),
    vdepth v ≤ fuel → scalarOnly v = true → wfKeys v = true →
    (deepDiffF fuel v v path).same.length = leafCount v := by
  intro fuel
  induction fuel with
  | zero =>
    intro v path h
    exact absurd h (by have := vdepth_pos v; omega)
  | succ fuel ih =>
    intro v path h hsc hwf
    match v with
    | .arr xs =>
      simp only [scalarOnly, Bool.and_eq_true] at hsc
      have hG := (diffArraysG_self (deepDiffF fuel) xs path).2.2.2
      show (diffArraysG (deepDiffF fuel) xs xs path).same.length = leafCount (.arr xs)
      rw [hG]
      show xs.length = leafCountL xs
      rw [leafCountL_of_prim hsc.1]
    | .obj fs =>
      simp only [wfKeys, Bool.and_eq_true] at hwf
      have hsc' : scalarOnlyF fs = true := hsc
      have hdep : vdepthF fs ≤ fuel := by
        have hd : vdepth (Value.obj fs) = vdepthF fs + 1 := rfl
        omega
      have hkeys : ∀ k ∈ keysOf fs, memKey fs k = true :=
        fun k hk => (memKey_iff fs k).mpr hk
      have hrec : ∀ k ∈ keysOf fs,
          (deepDiffF fuel (lookupD fs k) (lookupD fs k) (pathKey path k)).added = [] ∧
          (deepDiffF fuel (lookupD fs k) (lookupD fs k) (pathKey path k)).removed = [] ∧
          (deepDiffF fuel (lookupD fs k) (lookupD fs k) (pathKey path k)).changed = [] := by
        intro k hk
        exact deepDiffF_self_empty fuel (lookupD fs k) (pathKey path k)
          (le_trans (vdepthF_bound (lookupD_mem hk)) hdep)
      show (objLoop (deepDiffF fuel) fs fs path
          (dedupStr (keysOf fs ++ keysOf fs) []) emptyDiff).same.length =
        leafCount (.obj fs)
      rw [dedupStr_double hwf.1]
      have hO := (objLoop_self (deepDiffF fuel) fs path (keysOf fs) emptyDiff
        hkeys hrec).2.2.2
      rw [hO]
      have hmap : (keysOf fs).map (fun k =>
          (deepDiffF fuel (lookupD fs k) (lookupD fs k) (pathKey path k)).same.length) =
          (keysOf fs).map (fun k => leafCount (lookupD fs k)) := by
        refine List.map_congr_left (fun k hk => ?_)
        exact ih (lookupD fs k) (pathKey path k)
          (le_trans (vdepthF_bound (lookupD_mem hk)) hdep)
          (scalarOnlyF_mem hsc' (lookupD_mem hk))
          (wfKeysF_mem hwf.2 (lookupD_mem hk))
      rw [hmap, sum_lookup_leaf fs hwf.1]
      simp [emptyDiff, leafCount]
    | .null => rw [deepDiffF_scalar_self fuel Value.null path rfl]; rfl
    | .undef => rw [deepDiffF_scalar_self fuel Value.undef path rfl]; rfl
    | .bool b => rw [deepDiffF_scalar_self fuel (Value.bool b) path rfl]; rfl
    | .num n => rw [deepDiffF_scalar_self fuel (Value.num n) path rfl]; rfl
    | .nan => rw [deepDiffF_scalar_self fuel Value.nan path rfl]; rfl
    | .posInf => rw [deepDiffF_scalar_self fuel Value.posInf path rfl]; rfl
    | .negInf => rw [deepDiffF_scalar_self fuel Value.negInf path rfl]; rfl
    | .str s => rw [deepDiffF_scalar_self fuel (Value.str s) path rfl]; rfl

/-! ## Claim C4: idempotence of deepDiff -/

/-- C4 counterexample: for v = [[1,2]] (an array whose element is itself an
array), `deepDiff(v,v)` emits a single `same` entry for the whole matched
element instead of one entry per leaf: v has 2 leaves but `same` has length
1. -/
theorem claim_C4_counterexample :
    deepDiff (.arr [.arr [.num 1, .num 2]]) (.arr [.arr [.num 1, .num 2]]) "" =
      ⟨[], [], [], [⟨"[0]", .arr [.num 1, .num 2]⟩]⟩ ∧
    leafCount (.arr [.arr [.num 1, .num 2]]) = 2 ∧
    (deepDiff (.arr [.arr [.num 1, .num 2]])
        (.arr [.arr [.num 1, .num 2]]) "").same.length ≠
      leafCount (.arr [.arr [.num 1, .num 2]]) :=
  ⟨rfl, rfl, by decide⟩

/-- C4 amended: `deepDiff(v, v)` always yields empty `added`, `removed` and
`changed`; the `same` sequence has one entry for every leaf of `v` whenever
every array inside `v` has only scalar elements (and objects have
duplicate-free keys, as JS objects always do) — an array element that is
itself composite is paired whole by the exact-key pass and contributes a
single `same` entry, not one per leaf. -/
theorem claim_C4_amended :
    (∀ (v : Value) (path : String),
      (deepDiff v v path).added = [] ∧ (deepDiff v v path).removed = [] ∧
        (deepDiff v v path).changed = []) ∧
    (∀ (v : Value) (path : String), scalarOnly v = true → wfKeys v = true →
      (deepDiff v v path).same.length = leafCount v) := by
  constructor
  · intro v path
    exact deepDiffF_self_empty (vdepth v) v path (le_refl _)
  · intro v path h1 h2
    exact deepDiffF_self_len (vdepth v) v path (le_refl _) h1 h2

/-- Witness for C4 amended at v = {x:1, y:[2,true]}: empty difference
categories and one `same` entry per leaf (3 leaves). -/
theorem claim_C4_amended_witness :
    ((deepDiff (.obj [("x", .num 1), ("y", .arr [.num 2, .bool true])])
        (.obj [("x", .num 1), ("y", .arr [.num 2, .bool true])]) "").added = [] ∧
      (deepDiff (.obj [("x", .num 1), ("y", .arr [.num 2, .bool true])])
        (.obj [("x", .num 1), ("y", .arr [.num 2, .bool true])]) "").removed = [] ∧
      (deepDiff (.obj [("x", .num 1), ("y", .arr [.num 2, .bool true])])
        (.obj [("x", .num 1), ("y", .arr [.num 2, .bool true])]) "").changed = []) ∧
    scalarOnly (.obj [("x", .num 1), ("y", .arr [.num 2, .bool true])]) = true ∧
    wfKeys (.obj [("x", .num 1), ("y", .arr [.num 2, .bool true])]) = true ∧
    (deepDiff (.obj [("x", .num 1), ("y", .arr [.num 2, .bool true])])
        (.obj [("x", .num 1), ("y", .arr [.num 2, .bool true])]) "").same.length =
      leafCount (.obj [("x", .num 1), ("y", .arr [.num 2, .bool true])]) :=
  ⟨claim_C4_amended.1 _ "", rfl, rfl, claim_C4_amended.2 _ "" rfl rfl⟩
